import Mathlib

/-!
Shallow embedding of the External Data Binding Engine of the AutoServe
repository (source: the externalData module exporting processExternalData,
resolvePathValue and friends), together with theorems checking the
natural-language specification against it.

JavaScript values reachable from a decoded JSON payload are embedded as the
inductive type Json; the JS value undefined is embedded as Option.none (a
value of type Option Json is called a JVal below).  JS numbers are embedded
as exact rationals extended with NaN and signed infinities; platform
builtins (Number(), String(), toLowerCase, trim, the regex used for path
tokenization) are modelled by hand-written Lean functions that follow the
ECMAScript semantics on the fragment the engine exercises, as documented at
each such definition.  Functions whose JS counterpart recurses through
nested arrays/objects are defined with an explicit fuel argument (structural
in the fuel) so that every definition is executable by kernel reduction; the
public wrappers pass a fuel that provably dominates the recursion depth.
-/

/-- Modelled JS number: an exact rational for finite doubles, plus NaN and
the two infinities.  Exact rationals over-approximate binary doubles; the
engine only produces and consumes small decimal numbers, where the two
agree. -/
inductive JsNumber where
  | fin (q : Rat)
  | nan
  | inf (neg : Bool)
deriving Repr, DecidableEq

/-- JSON value as decoded from a payload body.  Objects are association
lists in property-enumeration order with pairwise distinct keys (the shape
JSON.parse produces); undefined is not a Json value and is represented by
Option.none at use sites. -/
inductive Json where
  | null
  | bool (b : Bool)
  | num (n : JsNumber)
  | str (s : String)
  | arr (items : List Json)
  | obj (entries : List (String × Json))
deriving Repr

/-- Option pair emitted by the engine (the SelectOption type of the repo). -/
structure SelectOption where
  value : String
  label : String
deriving Repr, DecidableEq

/-- Modelled from the spec: the FieldDescriptor type field kinds
(text, number, select).  The defining source file is not under src. -/
inductive FieldType where
  | text
  | number
  | select
deriving Repr, DecidableEq

/-- Modelled from the spec: the FieldDescriptor (FormField) record consumed
by the engine - id, display label, type, and the two optional binding path
expressions.  The defining source file is not under src; fields the engine
never reads (required, placeholder) are omitted. -/
structure FormField where
  id : String
  label : Option String
  type : FieldType
  externalDataPath : Option String
  externalDataValuePath : Option String
deriving Repr, DecidableEq

/-- Typed initial value produced by convertInitialValue: a finite number or
a string. -/
inductive InitValue where
  | num (q : Rat)
  | str (s : String)
deriving Repr, DecidableEq

/-- Output of processExternalData: field id keyed maps (as association
lists in insertion order, mirroring JS object property order). -/
structure ProcessedExternalData where
  selectOptions : List (String × List SelectOption)
  initialValues : List (String × InitValue)
deriving Repr, DecidableEq

/-- Modelled JS whitespace test for the ASCII range (space, tab, line feed,
carriage return, vertical tab, form feed); the engine only meets ASCII
keys. -/
def jsIsSpaceChar (c : Char) : Bool :=
  c == ' ' || c == '\t' || c == '\n' || c == '\r' || c.toNat == 11 || c.toNat == 12

/-- Characters matched by the source's separator class [\s_-]. -/
def isSepChar (c : Char) : Bool :=
  jsIsSpaceChar c || c == '_' || c == '-'

/-- Modelled String.prototype.trim for ASCII whitespace. -/
def jsTrim (s : String) : String :=
  String.mk (((s.data.dropWhile jsIsSpaceChar).reverse.dropWhile jsIsSpaceChar).reverse)

/-- Modelled String.prototype.toLowerCase on the ASCII range. -/
def jsToLower (s : String) : String :=
  String.mk (s.data.map Char.toLower)

/-- sanitizeKey from the source: drop every whitespace/underscore/hyphen
character, then lowercase. -/
def sanitizeKey (key : String) : String :=
  String.mk ((key.data.filter (fun c => ! isSepChar c)).map Char.toLower)

/-- ASCII letter or digit, the class [a-z0-9] under the /i flag. -/
def isAsciiAlnum (c : Char) : Bool :=
  (('a' ≤ c && c ≤ 'z') || ('A' ≤ c && c ≤ 'Z') || ('0' ≤ c && c ≤ '9'))

/-- Scanner for the camel-casing replace of createKeyVariants: a maximal
separator run immediately followed by an alphanumeric character is dropped
and that character upper-cased; any other separator run is kept verbatim.
The first argument accumulates the pending separator run in reverse. -/
def camelizeAux (runAcc : List Char) : List Char → List Char
  | [] => runAcc.reverse
  | c :: cs =>
    if isSepChar c then camelizeAux (c :: runAcc) cs
    else if runAcc.isEmpty then c :: camelizeAux [] cs
    else if isAsciiAlnum c then c.toUpper :: camelizeAux [] cs
    else runAcc.reverse ++ c :: camelizeAux [] cs

/-- The replace(/[-_\s]+([a-z0-9])/gi, upper) step of createKeyVariants. -/
def camelize (cs : List Char) : List Char :=
  camelizeAux [] cs

/-- Remove every separator character (replace(/[-_\s]+/g, '')). -/
def removeSeps (s : String) : String :=
  String.mk (s.data.filter (fun c => ! isSepChar c))

/-- Collapse each maximal separator run to a single underscore
(replace(/[-_\s]+/g, '_')).  The Bool argument records whether the previous
character was a separator. -/
def collapseSepsAux (inRun : Bool) : List Char → List Char
  | [] => []
  | c :: cs =>
    if isSepChar c then
      if inRun then collapseSepsAux true cs else '_' :: collapseSepsAux true cs
    else c :: collapseSepsAux false cs

/-- replace(/[-_\s]+/g, '_') from createKeyVariants. -/
def collapseSeps (s : String) : String :=
  String.mk (collapseSepsAux false s.data)

/-- First-occurrence deduplication, the order a JS Set preserves. -/
def dedupFirstAux (seen : List String) : List String → List String
  | [] => []
  | x :: xs =>
    if seen.contains x then dedupFirstAux seen xs
    else x :: dedupFirstAux (x :: seen) xs

/-- Array.from(new Set(list)): keep first occurrences in order. -/
def dedupFirst (l : List String) : List String :=
  dedupFirstAux [] l

/-- createKeyVariants from the source: the seven spelling variants of a
trimmed identifier, deduplicated in insertion order, empty strings
dropped. -/
def createKeyVariants (input : String) : List String :=
  let trimmed := jsTrim input
  if trimmed = "" then []
  else
    let camel := String.mk (camelize (jsToLower trimmed).data)
    (dedupFirst
      [trimmed, jsToLower trimmed, removeSeps trimmed, collapseSeps trimmed,
       camel, jsToLower camel, sanitizeKey trimmed]).filter (fun v => v ≠ "")

/-- labelKeys constant from the source. -/
def labelKeys : List String :=
  ["label", "name", "title", "value", "id", "code"]

/-- identifierKeys constant from the source. -/
def identifierKeys : List String :=
  ["fieldId", "field_id", "field", "fieldName", "field_name", "targetField",
   "target_field", "target", "id", "name", "key", "code", "column", "property"]

/-- explicitValueKeys constant from the source. -/
def explicitValueKeys : List String :=
  ["value", "default", "defaultValue", "initial", "initialValue", "current",
   "selected"]

/-- Lookup in a string-keyed association map: value of the first entry with
the given key (keys are unique in every map the engine builds, and JSON
objects carry unique keys). -/
def mapGet {α : Type} (m : List (String × α)) (k : String) : Option α :=
  (m.find? (fun e => e.1 == k)).map (fun e => e.2)

/-- Key-presence test on an association map. -/
def mapHas {α : Type} (m : List (String × α)) (k : String) : Bool :=
  (mapGet m k).isSome

/-- JS Map.prototype.set / object property write: overwrite in place when
the key exists, otherwise append, preserving insertion order. -/
def mapSet {α : Type} (m : List (String × α)) (k : String) (v : α) : List (String × α) :=
  if mapHas m k then m.map (fun e => if e.1 == k then (k, v) else e)
  else m ++ [(k, v)]

/-- The pair of indexes buildLookup returns. -/
structure Lookup where
  lower : List (String × Json)
  sanitized : List (String × Json)

/-- buildLookup from the source: index every property of the record by the
lowercase and by the sanitized form of its name; Map.set overwrites, so the
later of two colliding properties wins. -/
def buildLookup (record : List (String × Json)) : Lookup :=
  { lower := record.foldl (fun m e => mapSet m (jsToLower e.1) e.2) []
    sanitized := record.foldl (fun m e => mapSet m (sanitizeKey e.1) e.2) [] }

/-- Evaluate the optional predicate of getValueFromRecord (absent means
always true). -/
def predOk (predicate : Option (Json → Bool)) (v : Json) : Bool :=
  match predicate with
  | none => true
  | some p => p v

/-- One tier of getValueFromRecord: scan the candidate keys in order
through the given key-to-value accessor, returning the first hit that
satisfies the predicate. -/
def tierScan (get : String → Option Json) (predicate : Option (Json → Bool)) :
    List String → Option Json
  | [] => none
  | k :: ks =>
    match get k with
    | some v => if predOk predicate v then some v else tierScan get predicate ks
    | none => tierScan get predicate ks

/-- getValueFromRecord from the source: try the full candidate list against
exact membership, then against the lowercase index, then against the
sanitized index. -/
def getValueFromRecord (record : List (String × Json)) (lookup : Lookup)
    (keys : List String) (predicate : Option (Json → Bool)) : Option Json :=
  match tierScan (fun k => mapGet record k) predicate keys with
  | some v => some v
  | none =>
    match tierScan (fun k => mapGet lookup.lower (jsToLower k)) predicate keys with
    | some v => some v
    | none => tierScan (fun k => mapGet lookup.sanitized (sanitizeKey k)) predicate keys

/-- Array.isArray. -/
def isArrayJson : Json → Bool
  | Json.arr _ => true
  | _ => false

/-- getArrayValue from the source: resolve with the is-array predicate and
return the element list. -/
def getArrayValue (record : List (String × Json)) (lookup : Lookup)
    (keys : List String) : Option (List Json) :=
  match getValueFromRecord record lookup keys (some isArrayJson) with
  | some (Json.arr items) => some items
  | _ => none

/-- Modelled String(x) for booleans. -/
def jsBoolToString (b : Bool) : String :=
  if b then "true" else "false"

/-- Decimal digits of a remainder, by long division (helper for number
printing). -/
def fracDigitsAux : Nat → Nat → Nat → List Char
  | 0, _, _ => []
  | _ + 1, 0, _ => []
  | fuel + 1, r, den =>
    let r10 := r * 10
    Char.ofNat (48 + r10 / den) :: fracDigitsAux fuel (r10 % den) den

/-- Modelled String(x) for non-integer finite numbers: exact decimal
expansion to at most 17 fractional digits.  JS prints the shortest decimal
that round-trips the double; the engine never stringifies non-integer
numbers in the behaviours claimed, so this approximation is inert. -/
def ratDecimalRepr (q : Rat) : String :=
  let sign := if q.num < 0 then "-" else ""
  let a := q.num.natAbs
  sign ++ Nat.repr (a / q.den) ++ "." ++ String.mk (fracDigitsAux 17 (a % q.den) q.den)

/-- Modelled String(x) for numbers. -/
def jsNumToString (n : JsNumber) : String :=
  match n with
  | JsNumber.nan => "NaN"
  | JsNumber.inf neg => if neg then "-Infinity" else "Infinity"
  | JsNumber.fin q =>
    if q.den = 1 then
      if q.num < 0 then "-" ++ Nat.repr q.num.natAbs else Nat.repr q.num.natAbs
    else ratDecimalRepr q

/-- Value of a decimal digit run. -/
def digitsToNat (ds : List Char) : Nat :=
  ds.foldl (fun acc c => acc * 10 + (c.toNat - 48)) 0

/-- Modelled Number(x) string-to-number conversion: trims whitespace, maps
the empty string to 0, accepts optionally signed decimal numerals with
optional fraction and exponent and the Infinity spellings, and yields NaN
otherwise.  Hex/octal/binary numerals (which the engine never meets in the
claimed behaviours) are not modelled and yield NaN. -/
def jsStringToNumber (s : String) : JsNumber :=
  let t := (jsTrim s).data
  if t.isEmpty then JsNumber.fin 0
  else
    let negRest : Bool × List Char :=
      match t with
      | '-' :: r => (true, r)
      | '+' :: r => (false, r)
      | r => (false, r)
    let neg := negRest.1
    let rest := negRest.2
    if rest = "Infinity".data then JsNumber.inf neg
    else
      let intDigits := rest.takeWhile Char.isDigit
      let rest1 := rest.dropWhile Char.isDigit
      let fracRest : List Char × List Char :=
        match rest1 with
        | '.' :: r => (r.takeWhile Char.isDigit, r.dropWhile Char.isDigit)
        | r => ([], r)
      let fracDigits := fracRest.1
      let rest2 := fracRest.2
      let expPart : Bool × Int × List Char :=
        match rest2 with
        | 'e' :: r =>
          let er : Bool × List Char :=
            match r with
            | '-' :: rr => (true, rr)
            | '+' :: rr => (false, rr)
            | rr => (false, rr)
          let eds := er.2.takeWhile Char.isDigit
          if eds.isEmpty then (false, 0, rest2)
          else (true, (if er.1 then -(digitsToNat eds : Int) else (digitsToNat eds : Int)),
                er.2.dropWhile Char.isDigit)
        | 'E' :: r =>
          let er : Bool × List Char :=
            match r with
            | '-' :: rr => (true, rr)
            | '+' :: rr => (false, rr)
            | rr => (false, rr)
          let eds := er.2.takeWhile Char.isDigit
          if eds.isEmpty then (false, 0, rest2)
          else (true, (if er.1 then -(digitsToNat eds : Int) else (digitsToNat eds : Int)),
                er.2.dropWhile Char.isDigit)
        | r => (true, 0, r)
      if (intDigits.isEmpty && fracDigits.isEmpty) || ! expPart.1 || ! expPart.2.2.isEmpty then
        JsNumber.nan
      else
        let fracLen := fracDigits.length
        let mant : Nat := digitsToNat intDigits * 10 ^ fracLen + digitsToNat fracDigits
        let expVal := expPart.2.1
        let numAbs : Nat := if 0 ≤ expVal then mant * 10 ^ expVal.toNat else mant
        let den : Nat := if 0 ≤ expVal then 10 ^ fracLen else 10 ^ fracLen * 10 ^ (-expVal).toNat
        JsNumber.fin (mkRat (if neg then -(numAbs : Int) else (numAbs : Int)) den)

/-- toPrimitiveString from the source: restringify strings, numbers and
booleans; null/undefined and composite values yield null (none). -/
def toPrimitiveString : Option Json → Option String
  | some (Json.str s) => some s
  | some (Json.num n) => some (jsNumToString n)
  | some (Json.bool b) => some (jsBoolToString b)
  | _ => none

/-- toLabelString from the source: primitives pass through; arrays never
label; objects are probed against labelKeys in order, falling back to the
first declared property when its name is non-empty. -/
def toLabelString (input : Option Json) : Option String :=
  match toPrimitiveString input with
  | some s => some s
  | none =>
    match input with
    | some (Json.obj entries) =>
      match labelKeys.findSome? (fun k => toPrimitiveString (mapGet entries k)) with
      | some s => some s
      | none =>
        match entries.head? with
        | some e => if e.1 ≠ "" then toPrimitiveString (some e.2) else none
        | none => none
    | _ => none

mutual

/-- Structural size of a Json value (fuel source for the one non-structural
recursion, toValueStringF). -/
def jsize : Json → Nat
  | Json.null => 1
  | Json.bool _ => 1
  | Json.num _ => 1
  | Json.str _ => 1
  | Json.arr items => 1 + jsizeL items
  | Json.obj entries => 1 + jsizeE entries

/-- Structural size of a Json list. -/
def jsizeL : List Json → Nat
  | [] => 1
  | j :: js => 1 + jsize j + jsizeL js

/-- Structural size of a Json entry list. -/
def jsizeE : List (String × Json) → Nat
  | [] => 1
  | e :: es => 1 + jsize e.2 + jsizeE es

end

/-- Recursion-depth fuel for a JVal: the structural size of the carried
Json (1 for undefined). -/
def osize : Option Json → Nat
  | none => 1
  | some j => jsize j

/-- toValueString from the source, fuel-indexed: like toLabelString, but an
object first tries the explicitValueKeys recursively through toValueString
itself (a non-empty result wins), then falls back to toLabelString on the
whole object.  The recursion always descends to a value stored inside the
object, so any fuel at least osize of the input yields the stable result
(see toValueStringF_stable). -/
def toValueStringF : Nat → Option Json → Option String
  | 0, _ => none
  | fuel + 1, input =>
    match toPrimitiveString input with
    | some s => some s
    | none =>
      match input with
      | some (Json.obj entries) =>
        let lookup := buildLookup entries
        match toValueStringF fuel (getValueFromRecord entries lookup explicitValueKeys none) with
        | some s => if s ≠ "" then some s else toLabelString (some (Json.obj entries))
        | none => toLabelString (some (Json.obj entries))
      | _ => none

/-- toValueString from the source (wrapper supplying sufficient fuel). -/
def toValueString (input : Option Json) : Option String :=
  toValueStringF (osize input) input

mutual

/-- The visit closure of normalizeOptions: arrays recurse into their items;
any other item contributes an option when its value string (toValueString,
falling back to toLabelString) is non-empty and not yet emitted. -/
def visitOption (acc : List SelectOption) : Json → List SelectOption
  | Json.arr items => visitOptionL acc items
  | item =>
    let rawValue := toValueString (some item)
    let rawLabel := toLabelString (some item)
    let value :=
      match rawValue with
      | some s => some s
      | none => rawLabel
    match value with
    | none => acc
    | some v =>
      if v = "" || acc.any (fun o => o.value == v) then acc
      else acc ++ [⟨v, rawLabel.getD v⟩]

/-- visitOption threaded left to right over a list (the forEach calls). -/
def visitOptionL (acc : List SelectOption) : List Json → List SelectOption
  | [] => acc
  | j :: js => visitOptionL (visitOption acc j) js

end

/-- normalizeOptions from the source: flatten nested arrays, keep the first
occurrence of each non-empty value string, pair it with its label. -/
def normalizeOptions (input : List Json) : List SelectOption :=
  visitOptionL [] input

mutual

/-- flattenToArray recursion on a Json value: arrays are concatenated
recursively, a scalar or object becomes a singleton. -/
def flattenJson : Json → List Json
  | Json.arr items => flattenJsonL items
  | j => [j]

/-- flattenToArray recursion over array items. -/
def flattenJsonL : List Json → List Json
  | [] => []
  | j :: js => flattenJson j ++ flattenJsonL js

end

/-- flattenToArray from the source: undefined flattens to the empty list. -/
def flattenToArray : Option Json → List Json
  | none => []
  | some j => flattenJson j

/-- JS nullish coalescing a ?? b for JVals: undefined and null both fall
through. -/
def jsCoalesce (a b : Option Json) : Option Json :=
  match a with
  | none => b
  | some Json.null => b
  | some v => some v

/-- Append one candidate option to the accumulator when its value string is
defined, non-empty and unseen (the seen set of the source is exactly the
accumulated values); the label is only computed for a kept option. -/
def accOption (acc : List SelectOption) (value : Option String)
    (label : String → String) : List SelectOption :=
  match value with
  | none => acc
  | some v =>
    if v = "" || acc.any (fun o => o.value == v) then acc
    else acc ++ [⟨v, label v⟩]

/-- One position of the buildSelectOptions loop: clamp both candidate
arrays to their last element past the end, coalesce nullishly, compute the
value string through toValueString with the toLabelString fallback, and
accumulate. -/
def buildSelectStep (labelCandidates valueCandidates : List Json) (index : Nat)
    (acc : List SelectOption) : List SelectOption :=
  let labelCandidate :=
    jsCoalesce (jsCoalesce (labelCandidates.get? index)
      (labelCandidates.get? (labelCandidates.length - 1))) (valueCandidates.get? index)
  let valueCandidate :=
    jsCoalesce (jsCoalesce (valueCandidates.get? index)
      (valueCandidates.get? (valueCandidates.length - 1))) labelCandidate
  let value0 := toValueString valueCandidate
  let value :=
    match value0 with
    | some s => if s = "" then toLabelString valueCandidate else some s
    | none => toLabelString valueCandidate
  accOption acc value (fun v => (toLabelString (jsCoalesce labelCandidate valueCandidate)).getD v)

/-- The index loop of buildSelectOptions: position index, n positions
left. -/
def buildSelectLoop (labelCandidates valueCandidates : List Json) :
    Nat → Nat → List SelectOption → List SelectOption
  | _, 0, acc => acc
  | index, n + 1, acc =>
    buildSelectLoop labelCandidates valueCandidates (index + 1) n
      (buildSelectStep labelCandidates valueCandidates index acc)

/-- buildSelectOptions from the source: flatten the label and value inputs
independently, walk max-length positions clamping each array to its last
element, keep positions whose value string is non-empty and new. -/
def buildSelectOptions (labels : Option Json) (values : Option Json) : List SelectOption :=
  let labelCandidates := flattenToArray labels
  let valueCandidates :=
    match values with
    | none => []
    | some v => flattenToArray (some v)
  let count := max labelCandidates.length valueCandidates.length
  if count = 0 then []
  else buildSelectLoop labelCandidates valueCandidates 0 count []

/-- convertInitialValue from the source: type-directed coercion to a typed
initial value, yielding none instead of raising. -/
def convertInitialValue (field : FormField) (value : Option Json) : Option InitValue :=
  match value with
  | none => none
  | some Json.null => none
  | some v =>
    match field.type with
    | FieldType.number =>
      match v with
      | Json.num n =>
        match n with
        | JsNumber.fin q => some (InitValue.num q)
        | _ => none
      | Json.str s =>
        if jsTrim s ≠ "" then
          match jsStringToNumber s with
          | JsNumber.fin q => some (InitValue.num q)
          | _ => none
        else none
      | _ => none
    | FieldType.select =>
      match v with
      | Json.str s => some (InitValue.str s)
      | Json.num n => some (InitValue.str (jsNumToString n))
      | Json.bool b => some (InitValue.str (jsBoolToString b))
      | _ => none
    | FieldType.text =>
      match v with
      | Json.str s => some (InitValue.str s)
      | Json.num n => some (InitValue.str (jsNumToString n))
      | Json.bool b => some (InitValue.str (jsBoolToString b))
      | _ => none

/-- Characters admitted by the plain-token alternative [^.[\]]+ of the path
regex: anything but dot and brackets. -/
def isSegChar (c : Char) : Bool :=
  ! (c == '.' || c == '[' || c == ']')

/-- ECMAScript line terminators, which the dot of the path regex never
matches. -/
def isLineTerm (c : Char) : Bool :=
  c == '\n' || c == '\r' || c.toNat == 8232 || c.toNat == 8233

/-- Lazy search of the quoted-bracket alternative: the content runs to the
first closing quote that is immediately followed by a closing bracket;
content characters may not be line terminators.  Returns the content and
the characters after the bracket. -/
def findClose (q : Char) : List Char → Option (List Char × List Char)
  | [] => none
  | c :: cs =>
    if c == q && cs.head? == some ']' then some ([], cs.tail)
    else if isLineTerm c then none
    else
      match findClose q cs with
      | some r => some (c :: r.1, r.2)
      | none => none

/-- Attempt the bracket alternative \[(?:-?\d+|(["'])(.*?)\1)\] of the path
regex at a position just after an opening bracket; on success returns the
full matched token (brackets included) and the rest of the input.  A plain
empty bracket pair has no matching alternative and fails. -/
def matchBracket (cs : List Char) : Option (String × List Char) :=
  match cs with
  | [] => none
  | c :: rest =>
    if c == '"' || c == Char.ofNat 39 then
      match findClose c rest with
      | some r => some (String.mk ('[' :: c :: (r.1 ++ [c, ']'])), r.2)
      | none => none
    else
      let signDs : List Char × List Char :=
        if c == '-' then ([c], rest) else ([], c :: rest)
      match signDs.2 with
      | [] => none
      | d :: _ =>
        if d.isDigit then
          let digits := signDs.2.takeWhile Char.isDigit
          let after := signDs.2.dropWhile Char.isDigit
          match after with
          | ']' :: rest2 => some (String.mk ('[' :: (signDs.1 ++ digits ++ [']'])), rest2)
          | _ => none
        else none

/-- Global scan of the path token regex
[^.[\]]+|\[(?:-?\d+|(["'])(.*?)\1)\] : collect successive matches, advancing
one character past every position where neither alternative matches (this
silently skips stray dots and brackets, including a plain [] pair).  The
fuel dominates the number of scan steps; the input length suffices. -/
def scanTokensF : Nat → List Char → List String
  | _, [] => []
  | 0, _ => []
  | fuel + 1, c :: cs =>
    if isSegChar c then
      String.mk (c :: cs.takeWhile isSegChar) :: scanTokensF fuel (cs.dropWhile isSegChar)
    else if c == '[' then
      match matchBracket cs with
      | some r => r.1 :: scanTokensF fuel r.2
      | none => scanTokensF fuel cs
    else scanTokensF fuel cs

/-- match(pathTokenPattern) on a normalized path string. -/
def scanTokens (cs : List Char) : List String :=
  scanTokensF cs.length cs

/-- The per-token mapping of parsePathSegments: unwrap bracket tokens,
strip a quoted key's quotes, turn an (unreachable via the regex) empty
bracket interior into the flatten marker. -/
def mapSegment (tok : String) : String :=
  let cs := tok.data
  if cs.head? == some '[' && cs.getLast? == some ']' then
    let inner := jsTrim (String.mk (cs.drop 1).dropLast)
    let ics := inner.data
    if ics.head? == some '"' && ics.getLast? == some '"' then
      String.mk (ics.drop 1).dropLast
    else if ics.head? == some (Char.ofNat 39) && ics.getLast? == some (Char.ofNat 39) then
      String.mk (ics.drop 1).dropLast
    else if inner = "" then "[]"
    else inner
  else tok

/-- parsePathSegments from the source: trim, strip leading dollar signs,
tokenize with the path regex, map each token, trim and drop empties. -/
def parsePathSegments (path : String) : List String :=
  let trimmed := jsTrim path
  if trimmed = "" then []
  else
    let normalized := trimmed.data.dropWhile (fun c => c == '$')
    (((scanTokens normalized).map mapSegment).map jsTrim).filter (fun seg => seg ≠ "")

/-- Number.isInteger combined with the non-negativity test of the array
index branch: a finite integer at least zero. -/
def jsNonNegIntIndex : JsNumber → Option Nat
  | JsNumber.fin q => if q.den = 1 && 0 ≤ q.num then some q.num.toNat else none
  | _ => none

/-- The traverse closure of resolvePathValue, by recursion on the remaining
segments.  A [] segment demands an array and concatenates the defined
sub-results (flattening one array level), yielding undefined when nothing
remained; a plain segment indexes an array through Number() or resolves one
object hop through getValueFromRecord; everything else is undefined. -/
def traversePath : List String → Option Json → Option Json
  | [], value => value
  | seg :: rest, value =>
    if seg = "[]" then
      match value with
      | some (Json.arr items) =>
        let results := items.foldr (fun item acc =>
          match traversePath rest (some item) with
          | none => acc
          | some (Json.arr xs) => xs ++ acc
          | some v => v :: acc) []
        if results.length > 0 then some (Json.arr results) else none
      | _ => none
    else
      match value with
      | some (Json.arr items) =>
        match jsNonNegIntIndex (jsStringToNumber seg) with
        | some idx => traversePath rest (items.get? idx)
        | none => none
      | some (Json.obj entries) =>
        match getValueFromRecord entries (buildLookup entries) [seg] none with
        | some next => traversePath rest (some next)
        | none => none
      | _ => none

/-- resolvePathValue from the source: parse the path and traverse from the
payload; an empty segment list resolves to undefined. -/
def resolvePathValue (payload : Json) (path : String) : Option Json :=
  let segments := parsePathSegments path
  if segments.isEmpty then none
  else traversePath segments (some payload)

/-- Result record of applyExplicitFieldData: an optional initial value and
an optional option list. -/
structure ApplyResult where
  initialValue : Option InitValue
  options : Option (List SelectOption)
deriving Repr, DecidableEq

/-- The option-array property names probed on an object-shaped scoped value
for a select field. -/
def optionSearchKeys : List String :=
  ["options", "values", "items", "list", "choices", "data"]

/-- split(/[;,]/) of a scalar string: split at every semicolon or comma.
The accumulator holds the current part in reverse. -/
def splitSemiCommaAux (acc : List Char) : List Char → List String
  | [] => [String.mk acc.reverse]
  | c :: cs =>
    if c == ';' || c == ',' then String.mk acc.reverse :: splitSemiCommaAux [] cs
    else splitSemiCommaAux (c :: acc) cs

/-- split(/[;,]/) on a string. -/
def splitSemiComma (s : String) : List String :=
  splitSemiCommaAux [] s.data

/-- applyExplicitFieldData from the source: dispatch on the shape of the
resolved value - select override pair, array, object, or scalar - and
produce the optional initial value and option list. -/
def applyExplicitFieldData (field : FormField) (value : Option Json)
    (valueOverride : Option Json) : ApplyResult :=
  let overrideResult : Option ApplyResult :=
    if field.type = FieldType.select && valueOverride.isSome then
      let options := buildSelectOptions value valueOverride
      if options.length > 0 then some ⟨none, some options⟩ else none
    else none
  match overrideResult with
  | some r => r
  | none =>
    match value with
    | some (Json.arr items) =>
      if field.type = FieldType.select then
        let options := normalizeOptions items
        if options.length > 0 then ⟨none, some options⟩ else ⟨none, none⟩
      else
        match items.findSome? (fun candidate => convertInitialValue field (some candidate)) with
        | some c => ⟨some c, none⟩
        | none => ⟨none, none⟩
    | some (Json.obj entries) =>
      let lookup := buildLookup entries
      let explicitValue := getValueFromRecord entries lookup explicitValueKeys none
      let initialValue :=
        match convertInitialValue field explicitValue with
        | some c => some c
        | none => convertInitialValue field (some (Json.obj entries))
      let options :=
        if field.type = FieldType.select then
          match getArrayValue entries lookup optionSearchKeys with
          | some optionArray =>
            if optionArray.length > 0 then
              let opts := normalizeOptions optionArray
              if opts.length > 0 then some opts else none
            else none
          | none => none
        else none
      ⟨initialValue, options⟩
    | _ =>
      let converted := convertInitialValue field value
      let options :=
        if field.type = FieldType.select then
          match value with
          | some (Json.str s) =>
            let parts := ((splitSemiComma s).map jsTrim).filter (fun p => p ≠ "")
            if parts.length > 0 then
              let opts := normalizeOptions (parts.map Json.str)
              if opts.length > 0 then some opts else none
            else none
          | _ => none
        else none
      ⟨converted, options⟩

/-- The two output maps threaded through the passes: selectOptions first,
initialValues second. -/
abbrev EngineMaps := List (String × List SelectOption) × List (String × InitValue)

/-- The valueOverride resolution of the explicit-path pass: a truthy
(present and non-blank) trimmed value path is resolved, anything else is
undefined. -/
def valueOverrideOf (payload : Json) (valuePath : Option String) : Option Json :=
  match valuePath with
  | some vp => if vp = "" then none else resolvePathValue payload vp
  | none => none

/-- One field of the explicit-path pass of processExternalData: skip fields
without a non-blank path, resolve the path (and the select value override
path), leave the field unbound when both resolutions are undefined,
otherwise record the applyExplicitFieldData outcome. -/
def pathPassStep (payload : Json) (st : EngineMaps) (field : FormField) : EngineMaps :=
  let path := jsTrim (field.externalDataPath.getD "")
  if path = "" then st
  else
    let valuePath : Option String :=
      if field.type = FieldType.select then field.externalDataValuePath.map jsTrim else none
    let valueOverride : Option Json := valueOverrideOf payload valuePath
    let scopedValue := resolvePathValue payload path
    if scopedValue.isNone && valueOverride.isNone then st
    else
      let r := applyExplicitFieldData field (jsCoalesce scopedValue valueOverride) valueOverride
      let init2 :=
        match r.initialValue with
        | some v => mapSet st.2 field.id v
        | none => st.2
      let opts2 :=
        match r.options with
        | some opts => if opts.length > 0 then mapSet st.1 field.id opts else st.1
        | none => st.1
      (opts2, init2)

/-- The explicit-path pass over all fields. -/
def pathPass (payload : Json) (fields : List FormField) : EngineMaps :=
  fields.foldl (pathPassStep payload) ([], [])

/-- Per-field precomputation of the structural pass: the key variants of id
and label, and the sanitized set they span (with the sanitized id and label
added). -/
structure FieldMeta where
  keyVariants : List String
  normalizedKeys : List String
deriving Repr

/-- The fieldMeta record built for one field in the structural pass. -/
def mkFieldMeta (field : FormField) : FieldMeta :=
  let keyVariants := createKeyVariants field.id ++ createKeyVariants (field.label.getD "")
  let normalizedKeys :=
    keyVariants.map sanitizeKey
      ++ (if field.id ≠ "" then [sanitizeKey field.id] else [])
      ++ (match field.label with
          | some l => if l ≠ "" then [sanitizeKey l] else []
          | none => [])
  ⟨keyVariants, normalizedKeys⟩

/-- The fieldMeta map of the structural pass (later duplicate field ids
overwrite earlier ones, as Map.set does). -/
def buildFieldMeta (fields : List FormField) : List (String × FieldMeta) :=
  fields.foldl (fun m f => mapSet m f.id (mkFieldMeta f)) []

/-- The extended candidate key list for a field's value in the structural
pass: the variants, the variants with Value/Default/Initial suffix
combinations, then the generic fallbacks. -/
def fieldValueKeys (keyVariants : List String) : List String :=
  keyVariants
    ++ (keyVariants.map (fun variant =>
        [variant ++ "Value", variant ++ "_value", variant ++ "Default",
         variant ++ "_default", variant ++ "DefaultValue", variant ++ "_default_value",
         variant ++ "Initial", variant ++ "_initial", variant ++ "InitialValue",
         variant ++ "_initial_value"])).flatten
    ++ ["value", "default", "defaultValue", "initial", "initialValue", "current"]

/-- The candidate key list for a field's option array in the structural
pass. -/
def fieldOptionKeys (keyVariants : List String) : List String :=
  (keyVariants.map (fun variant =>
      [variant ++ "Options", variant ++ "_options", variant ++ "Choices",
       variant ++ "_choices", variant ++ "List", variant ++ "_list"])).flatten
    ++ ["options", "values", "items", "list", "choices"]

/-- Aggregate accumulated for one field across matching records of an array
payload. -/
structure AggEntry where
  initialValue : Option InitValue
  options : Option (List Json)
deriving Repr

/-- The aggregated map and the matchedByStructure flag threaded through the
structural pass. -/
abbrev AggState := List (String × AggEntry) × Bool

/-- A record entry of an array payload viewed as a plain record: objects
keep their entries, arrays (which pass the typeof object guard) enumerate
their items under their index strings, everything else is skipped. -/
def asRecord : Json → Option (List (String × Json))
  | Json.obj entries => some entries
  | Json.arr items => some ((items.enum).map (fun p => (Nat.repr p.1, p.2)))
  | _ => none

/-- One field against one record in the structural pass: sanitize-match the
record's own property names against the field's normalized key set, fall
back to an identifier-style property whose string value sanitize-matches;
on a match, aggregate a first defined-and-convertible initial value and
concatenate any non-empty option array. -/
def structFieldStep (record : List (String × Json)) (lookup : Lookup)
    (metaMap : List (String × FieldMeta)) (idVariants : List String)
    (st : AggState) (field : FormField) : AggState :=
  match mapGet metaMap field.id with
  | none => st
  | some meta =>
    let matchesOwn := record.any (fun e => meta.normalizedKeys.contains (sanitizeKey e.1))
    let matchesField := matchesOwn ||
      (match getValueFromRecord record lookup idVariants none with
       | some (Json.str s) => meta.normalizedKeys.contains (sanitizeKey s)
       | _ => false)
    if matchesField then
      let aggregate := (mapGet st.1 field.id).getD ⟨none, none⟩
      let rawValue := getValueFromRecord record lookup (fieldValueKeys meta.keyVariants) none
      let newInit :=
        match rawValue, aggregate.initialValue with
        | some rv, none => convertInitialValue field (some rv)
        | _, prev => prev
      let optionArray :=
        match getArrayValue record lookup (fieldOptionKeys meta.keyVariants) with
        | some a => some a
        | none =>
          match rawValue with
          | some (Json.arr xs) => some xs
          | _ => none
      let newOpts :=
        match optionArray with
        | some a =>
          if a.length > 0 then some (aggregate.options.getD [] ++ a) else aggregate.options
        | none => aggregate.options
      (mapSet st.1 field.id ⟨newInit, newOpts⟩, true)
    else st

/-- One record of the array payload against every field. -/
def structEntryStep (fields : List FormField) (metaMap : List (String × FieldMeta))
    (idVariants : List String) (st : AggState) (entry : Json) : AggState :=
  match asRecord entry with
  | none => st
  | some record =>
    fields.foldl (structFieldStep record (buildLookup record) metaMap idVariants) st

/-- Merge one aggregated entry into the output maps: structural results
only fill field ids still absent, and option lists are normalized and must
stay non-empty. -/
def mergeAggStep (maps : EngineMaps) (e : String × AggEntry) : EngineMaps :=
  let init2 :=
    match e.2.initialValue with
    | some v => if mapHas maps.2 e.1 then maps.2 else mapSet maps.2 e.1 v
    | none => maps.2
  let opts2 :=
    match e.2.options with
    | some l =>
      if l.length > 0 && ! mapHas maps.1 e.1 then
        let options := normalizeOptions l
        if options.length > 0 then mapSet maps.1 e.1 options else maps.1
      else maps.1
    | none => maps.1
  (opts2, init2)

/-- The shared-option-pool fallback when no field matched structurally:
normalize the whole payload once and hand the list to every select field
still without options. -/
def sharedPool (entriesList : List Json) (fields : List FormField)
    (maps : EngineMaps) : EngineMaps :=
  let options := normalizeOptions entriesList
  if options.length > 0 then
    ((fields.filter (fun f => f.type == FieldType.select && ! mapHas maps.1 f.id)).foldl
      (fun m f => mapSet m f.id options) maps.1, maps.2)
  else maps

/-- One field of the generic object pass: look the key variants up directly
in the payload object, and for select fields probe variant option keys, the
payload-level generic array, or an array-shaped raw value. -/
def objectPassStep (record : List (String × Json)) (lookup : Lookup)
    (genericArray : Option (List Json)) (st : EngineMaps) (field : FormField) : EngineMaps :=
  let keyVariants := createKeyVariants field.id ++ createKeyVariants (field.label.getD "")
  let rawValue := getValueFromRecord record lookup keyVariants none
  let init2 :=
    match convertInitialValue field rawValue with
    | some v => if mapHas st.2 field.id then st.2 else mapSet st.2 field.id v
    | none => st.2
  let opts2 :=
    if field.type = FieldType.select then
      let optionKeys :=
        (keyVariants.map (fun variant =>
            [variant ++ "Options", variant ++ "_options", variant ++ "List",
             variant ++ "_list"])).flatten
      let fromKeys :=
        match getArrayValue record lookup optionKeys with
        | some a => some a
        | none => genericArray
      let optionArray :=
        match fromKeys with
        | some a => some a
        | none =>
          match rawValue with
          | some (Json.arr xs) => some xs
          | _ => none
      match optionArray with
      | some a =>
        if mapHas st.1 field.id then st.1
        else
          let options := normalizeOptions a
          if options.length > 0 then mapSet st.1 field.id options else st.1
      | none => st.1
    else st.1
  (opts2, init2)

/-- The identifierKeyVariants constant of the structural pass. -/
def identifierKeyVariants : List String :=
  dedupFirst ((identifierKeys.map createKeyVariants).flatten)

/-- The array-payload branch of processExternalData after the explicit-path
pass: run the structural pass, merge its aggregates into the gaps of the
path-pass maps, and fall back to the shared option pool when nothing
matched structurally. -/
def arrayBranch (entriesList : List Json) (fields : List FormField)
    (maps0 : EngineMaps) : EngineMaps :=
  let stA := entriesList.foldl
    (structEntryStep fields (buildFieldMeta fields) identifierKeyVariants) ([], false)
  let maps1 := stA.1.foldl mergeAggStep maps0
  if stA.2 then maps1 else sharedPool entriesList fields maps1

/-- The object-payload branch of processExternalData after the explicit-path
pass: the generic object pass over every field. -/
def objectBranch (entries : List (String × Json)) (fields : List FormField)
    (maps0 : EngineMaps) : EngineMaps :=
  let lookup := buildLookup entries
  let genericArray := getArrayValue entries lookup ["options", "values", "items", "data", "list"]
  fields.foldl (objectPassStep entries lookup genericArray) maps0

/-- processExternalData from the source: the explicit-path pass, then for
an array payload the structural pass with its aggregate merge and
shared-pool fallback, or for an object payload the generic object pass. -/
def processExternalData (payload : Json) (fields : List FormField) : ProcessedExternalData :=
  let maps0 := pathPass payload fields
  match payload with
  | Json.arr entriesList =>
    let maps2 := arrayBranch entriesList fields maps0
    ⟨maps2.1, maps2.2⟩
  | Json.obj entries =>
    let maps1 := objectBranch entries fields maps0
    ⟨maps1.1, maps1.2⟩
  | _ => ⟨maps0.1, maps0.2⟩

/-- Specification-side description of one lookup tier: the first candidate
key, in caller-supplied order, whose value under the tier's accessor
satisfies the predicate. -/
def tierSpec (get : String → Option Json) (predicate : Option (Json → Bool))
    (keys : List String) : Option Json :=
  keys.findSome? (fun k =>
    match get k with
    | some v => if predOk predicate v then some v else none
    | none => none)

/-- Specification-side description of an index lookup with last-write-wins
collisions: the value of the last property whose name maps to the probed
index key. -/
def lastIndexed (record : List (String × Json)) (f : String → String) (k : String) :
    Option Json :=
  (record.reverse.find? (fun e => f e.1 == k)).map (fun e => e.2)

mutual

/-- Specification-side candidate value stream of normalizeOptions: the
value string each leaf item would contribute (before deduplication), in
traversal order, empty and unusable items dropped. -/
def optionCandidates : Json → List String
  | Json.arr items => optionCandidatesL items
  | item =>
    match
      (match toValueString (some item) with
       | some s => some s
       | none => toLabelString (some item)) with
    | none => []
    | some v => if v = "" then [] else [v]

/-- Candidate value stream over a list of items. -/
def optionCandidatesL : List Json → List String
  | [] => []
  | j :: js => optionCandidates j ++ optionCandidatesL js

end

/-- The seen set reached after first-occurrence deduplication of a prefix:
the original seen set extended by every newly kept element. -/
def seenAfter (seen : List String) : List String → List String
  | [] => seen
  | x :: xs => if seen.contains x then seenAfter seen xs else seenAfter (x :: seen) xs

/-- Well-formedness of an emitted option list: non-empty, with pairwise
distinct and non-empty value strings. -/
def optInv (opts : List SelectOption) : Prop :=
  opts ≠ [] ∧ (opts.map (fun o => o.value)).Nodup ∧ ∀ o ∈ opts, o.value ≠ ""

/-- Every option list stored in a selectOptions map is well-formed. -/
def optMapInv (m : List (String × List SelectOption)) : Prop :=
  ∀ fid opts, mapGet m fid = some opts → optInv opts

/-- Every key of the map belongs to the given id list. -/
def keysSub {α : Type} (m : List (String × α)) (ids : List String) : Prop :=
  ∀ k, mapHas m k → k ∈ ids

/-- The joint invariant carried through every engine pass: well-formed
option lists, and both maps keyed only by known field ids. -/
def engineMapsInv (ids : List String) (maps : EngineMaps) : Prop :=
  optMapInv maps.1 ∧ keysSub maps.1 ids ∧ keysSub maps.2 ids

/-- Scalar JSON payloads: neither an array nor an object. -/
def isScalarJson : Json → Bool
  | Json.null => true
  | Json.bool _ => true
  | Json.num _ => true
  | Json.str _ => true
  | _ => false

/-- The payload of the specification's flatten example. -/
def flattenExamplePayload : Json :=
  Json.obj [("data", Json.obj [("items", Json.arr
    [Json.obj [("value", Json.num (JsNumber.fin 1))],
     Json.obj [("value", Json.num (JsNumber.fin 2))],
     Json.obj [("x", Json.num (JsNumber.fin 3))]])])]

/-- The structural-binding example payload: two records carrying fieldId
and value properties. -/
def structuralExamplePayload : Json :=
  Json.arr
    [Json.obj [("fieldId", Json.str "qty"), ("value", Json.num (JsNumber.fin 5))],
     Json.obj [("fieldId", Json.str "company"), ("value", Json.str "Acme")]]

/-- The qty number field of the structural-binding example (no path
configured). -/
def qtyField : FormField := ⟨"qty", some "qty", FieldType.number, none, none⟩

/-- The company text field of the structural-binding example. -/
def companyField : FormField := ⟨"company", some "company", FieldType.text, none, none⟩

theorem mapGet_nil {α : Type} (k : String) : mapGet ([] : List (String × α)) k = none := rfl

theorem mapGet_cons {α : Type} (e : String × α) (m : List (String × α)) (k : String) :
    mapGet (e :: m) k = if e.1 = k then some e.2 else mapGet m k := by
  by_cases h : e.1 = k <;> simp [mapGet, List.find?_cons, h]

theorem mapGet_append {α : Type} (m1 m2 : List (String × α)) (k : String) :
    mapGet (m1 ++ m2) k = (mapGet m1 k).or (mapGet m2 k) := by
  induction m1 with
  | nil => simp [mapGet]
  | cons e m1 ih =>
    rw [List.cons_append, mapGet_cons, mapGet_cons]
    by_cases h : e.1 = k <;> simp [h, ih]

theorem mapGet_map_replace_ne {α : Type} (m : List (String × α)) (k k' : String) (v : α)
    (h : k' ≠ k) :
    mapGet (m.map (fun e => if e.1 == k then (k, v) else e)) k' = mapGet m k' := by
  induction m with
  | nil => rfl
  | cons e m ih =>
    by_cases he : e.1 = k
    · simp only [List.map_cons]
      rw [if_pos (by simpa using he)]
      rw [mapGet_cons, mapGet_cons, ih]
      have hne : ¬ k = k' := fun hh => h hh.symm
      have hne2 : ¬ e.1 = k' := by rw [he]; exact hne
      rw [if_neg hne, if_neg hne2]
    · simp only [List.map_cons]
      rw [if_neg (by simpa using he)]
      rw [mapGet_cons, mapGet_cons, ih]

theorem mapGet_map_replace_self {α : Type} (m : List (String × α)) (k : String) (v : α)
    (h : mapHas m k) :
    mapGet (m.map (fun e => if e.1 == k then (k, v) else e)) k = some v := by
  induction m with
  | nil => simp [mapHas, mapGet] at h
  | cons e m ih =>
    by_cases he : e.1 = k
    · simp [mapGet_cons, he]
    · simp only [List.map_cons]
      rw [if_neg (by simpa using he)]
      rw [mapGet_cons, if_neg he]
      apply ih
      unfold mapHas at h
      rw [mapGet_cons, if_neg he] at h
      exact h

theorem mapGet_mapSet {α : Type} (m : List (String × α)) (k : String) (v : α) (k' : String) :
    mapGet (mapSet m k v) k' = if k' = k then some v else mapGet m k' := by
  unfold mapSet
  by_cases hh : mapHas m k
  · rw [if_pos hh]
    by_cases h : k' = k
    · subst h
      rw [if_pos rfl, mapGet_map_replace_self m k' v hh]
    · rw [if_neg h, mapGet_map_replace_ne m k k' v h]
  · rw [if_neg hh, mapGet_append]
    by_cases h : k' = k
    · subst h
      unfold mapHas at hh
      have : mapGet m k' = none := by
        cases hmg : mapGet m k' with
        | none => rfl
        | some x => rw [hmg] at hh; simp at hh
      simp [this, mapGet_cons]
    · have hne : k ≠ k' := fun hh2 => h hh2.symm
      simp [h, mapGet_cons, hne, mapGet_nil, Option.or_none]

theorem mapHas_mapSet {α : Type} (m : List (String × α)) (k : String) (v : α) (k' : String) :
    mapHas (mapSet m k v) k' = (k' = k || mapHas m k') := by
  unfold mapHas
  rw [mapGet_mapSet]
  by_cases h : k' = k <;> simp [h]

theorem foldl_preserve {α β : Type} (P : α → Prop) (f : α → β → α) (l : List β) (init : α)
    (h : ∀ a b, b ∈ l → P a → P (f a b)) (h0 : P init) : P (l.foldl f init) := by
  induction l generalizing init with
  | nil => exact h0
  | cons b l ih =>
    exact ih (f init b) (fun a c hc ha => h a c (List.mem_cons_of_mem b hc) ha)
      (h init b (List.mem_cons_self b l) h0)

/-- C1: the claim fails on the code, which contradicts its own dead
flatten branches: the path token regex [^.[\]]+|\[(?:-?\d+|(["'])(.*?)\1)\]
offers no alternative matching an empty bracket pair, so the `[]` of
"data.items[].value" is skipped by the global scan and the parsed segments
are just ["data", "items", "value"]; resolvePathValue then treats "value"
as a numeric index into the items array and returns undefined instead of
the claimed [1, 2].  Feeding traversePath the segment list the parser was
visibly meant to produce (its inner-empty-bracket mapping branch and the
whole flatten branch of traverse are otherwise unreachable for plain []
syntax) does yield [1, 2], matching the claim's intended semantics. -/
theorem C1_flatten_segment_dropped :
    parsePathSegments "data.items[].value" = ["data", "items", "value"] ∧
    resolvePathValue flattenExamplePayload "data.items[].value" = none ∧
    traversePath ["data", "items", "[]", "value"] (some flattenExamplePayload) =
      some (Json.arr [Json.num (JsNumber.fin 1), Json.num (JsNumber.fin 2)]) := by
  refine ⟨by decide, by rfl, by rfl⟩

/-- C3: with no externalDataPath configured, the structural pass binds the
array payload [(fieldId qty, value 5), (fieldId company, value "Acme")] to
the two fields by matching the records' identifier-style property against
the fields' sanitized key variants and taking the value from the extended
candidate key list, yielding exactly the claimed initial values (and no
option lists). -/
theorem C3_structural_array_binding :
    processExternalData structuralExamplePayload [qtyField, companyField] =
      ⟨[], [("qty", InitValue.num 5), ("company", InitValue.str "Acme")]⟩ := by
  decide

/-- C6: buildSelectOptions with labels ["A", "B", "C"] and scalar values
"X" walks max(3, 1) positions, clamps the single-element value array to its
last element at out-of-range indexes, and after value deduplication emits
exactly the single option (value "X", label "A"). -/
theorem C6_build_select_options_clamped :
    buildSelectOptions (some (Json.arr [Json.str "A", Json.str "B", Json.str "C"]))
      (some (Json.str "X")) = [⟨"X", "A"⟩] := by
  decide

theorem traversePath_scalar (j : Json) (h : isScalarJson j = true) (seg : String)
    (rest : List String) : traversePath (seg :: rest) (some j) = none := by
  by_cases hseg : seg = "[]" <;> cases j <;> simp_all [traversePath, isScalarJson]

theorem resolvePathValue_scalar (payload : Json) (h : isScalarJson payload = true)
    (path : String) : resolvePathValue payload path = none := by
  unfold resolvePathValue
  cases hs : parsePathSegments path with
  | nil => simp
  | cons seg rest => simp [traversePath_scalar payload h seg rest]

theorem valueOverrideOf_none (payload : Json)
    (hres : ∀ p, resolvePathValue payload p = none) (valuePath : Option String) :
    valueOverrideOf payload valuePath = none := by
  cases valuePath with
  | none => rfl
  | some vp => by_cases hvp : vp = "" <;> simp [valueOverrideOf, hvp, hres]

theorem pathPassStep_scalar (payload : Json) (h : isScalarJson payload = true)
    (st : EngineMaps) (field : FormField) : pathPassStep payload st field = st := by
  have hres : ∀ p, resolvePathValue payload p = none :=
    fun p => resolvePathValue_scalar payload h p
  by_cases hp : jsTrim (field.externalDataPath.getD "") = "" <;>
    simp [pathPassStep, hp, hres, valueOverrideOf_none payload hres]

theorem pathPass_scalar (payload : Json) (h : isScalarJson payload = true)
    (fields : List FormField) : pathPass payload fields = ([], []) := by
  unfold pathPass
  exact foldl_preserve (fun a => a = ([], [])) (pathPassStep payload) fields ([], [])
    (fun a b _ ha => by rw [pathPassStep_scalar payload h a b, ha]) rfl

/-- C10: a payload that is neither an array nor a non-null object - a
string, number, boolean, or JSON null - makes every path resolution
undefined, skips both the structural-array pass and the generic-object
pass, and so produces empty selectOptions and empty initialValues whatever
the field descriptors configure. -/
theorem C10_scalar_payload_empty (payload : Json) (fields : List FormField)
    (h : isScalarJson payload = true) :
    processExternalData payload fields = ⟨[], []⟩ := by
  cases payload <;> simp_all [processExternalData, pathPass_scalar, isScalarJson]

/-- C10 witness: a boolean payload with a field that does configure a path
still yields empty output maps. -/
theorem C10_scalar_payload_empty_witness :
    isScalarJson (Json.bool true) = true ∧
    processExternalData (Json.bool true)
      [⟨"f", some "f", FieldType.select, some "a.b", some "a.c"⟩] = ⟨[], []⟩ :=
  ⟨by decide, C10_scalar_payload_empty (Json.bool true)
    [⟨"f", some "f", FieldType.select, some "a.b", some "a.c"⟩] (by decide)⟩

/-- C9: for a number field, convertInitialValue passes a finite numeric
argument through unchanged, parses a non-blank string and keeps the result
only when finite ("42" gives 42, "abc" gives none), and maps every other
argument - blank strings, booleans, non-finite numbers, arrays, objects,
null and undefined - to none; failure is the absence of a result, never an
error (the function is total). -/
theorem C9_convert_number_field (field : FormField) (h : field.type = FieldType.number) :
    (∀ q : Rat, convertInitialValue field (some (Json.num (JsNumber.fin q))) =
      some (InitValue.num q)) ∧
    convertInitialValue field (some (Json.num JsNumber.nan)) = none ∧
    (∀ b : Bool, convertInitialValue field (some (Json.num (JsNumber.inf b))) = none) ∧
    convertInitialValue field (some (Json.str "42")) = some (InitValue.num 42) ∧
    convertInitialValue field (some (Json.str "abc")) = none ∧
    (∀ s : String, jsTrim s = "" → convertInitialValue field (some (Json.str s)) = none) ∧
    (∀ s : String, ∀ r : InitValue,
      convertInitialValue field (some (Json.str s)) = some r →
      ∃ q : Rat, jsStringToNumber s = JsNumber.fin q ∧ r = InitValue.num q) ∧
    (∀ b : Bool, convertInitialValue field (some (Json.bool b)) = none) ∧
    (∀ items : List Json, convertInitialValue field (some (Json.arr items)) = none) ∧
    (∀ entries : List (String × Json),
      convertInitialValue field (some (Json.obj entries)) = none) ∧
    convertInitialValue field (some Json.null) = none ∧
    convertInitialValue field none = none := by
  refine ⟨fun q => by simp [convertInitialValue, h], by simp [convertInitialValue, h],
    fun b => by simp [convertInitialValue, h],
    by simp [convertInitialValue, h]; decide,
    by simp [convertInitialValue, h]; decide,
    fun s hs => by simp [convertInitialValue, h, hs],
    fun s r hc => ?_,
    fun b => by simp [convertInitialValue, h],
    fun items => by simp [convertInitialValue, h],
    fun entries => by simp [convertInitialValue, h],
    by simp [convertInitialValue], by simp [convertInitialValue]⟩
  simp only [convertInitialValue, h] at hc
  by_cases hs : jsTrim s = ""
  · simp [hs] at hc
  · rw [if_pos (by simpa using hs)] at hc
    cases hn : jsStringToNumber s with
    | fin q =>
      rw [hn] at hc
      exact ⟨q, rfl, by simpa using hc.symm⟩
    | nan => rw [hn] at hc; simp at hc
    | inf b => rw [hn] at hc; simp at hc

/-- C9 witness: the concrete number field, with the "42" and "abc"
conversions evaluated there. -/
theorem C9_convert_number_field_witness :
    (⟨"n", some "n", FieldType.number, none, none⟩ : FormField).type = FieldType.number ∧
    convertInitialValue ⟨"n", some "n", FieldType.number, none, none⟩
      (some (Json.str "42")) = some (InitValue.num 42) ∧
    convertInitialValue ⟨"n", some "n", FieldType.number, none, none⟩
      (some (Json.str "abc")) = none :=
  ⟨rfl,
   (C9_convert_number_field ⟨"n", some "n", FieldType.number, none, none⟩ rfl).2.2.2.1,
   (C9_convert_number_field ⟨"n", some "n", FieldType.number, none, none⟩ rfl).2.2.2.2.1⟩

theorem tierScan_eq_findSome (get : String → Option Json) (predicate : Option (Json → Bool))
    (keys : List String) : tierScan get predicate keys = tierSpec get predicate keys := by
  induction keys with
  | nil => rfl
  | cons k ks ih =>
    unfold tierScan tierSpec
    rw [List.findSome?_cons]
    cases hg : get k with
    | none => simpa [hg] using ih
    | some v =>
      by_cases hp : predOk predicate v
      · simp [hg, hp]
      · simpa [hg, hp] using ih

theorem mapGet_foldl_mapSet (f : String → String) (l : List (String × Json))
    (m0 : List (String × Json)) (k : String) :
    mapGet (l.foldl (fun m e => mapSet m (f e.1) e.2) m0) k =
      ((l.reverse.find? (fun e => f e.1 == k)).map (fun e => e.2)).or (mapGet m0 k) := by
  induction l generalizing m0 with
  | nil => simp
  | cons e l ih =>
    rw [List.foldl_cons, ih (mapSet m0 (f e.1) e.2), List.reverse_cons, List.find?_append]
    cases hf : l.reverse.find? (fun e => f e.1 == k) with
    | some x => simp [hf]
    | none =>
      rw [mapGet_mapSet]
      by_cases hk : f e.1 = k
      · simp [List.find?_cons, hk]
      · have hk2 : ¬ k = f e.1 := fun hh => hk hh.symm
        simp [List.find?_cons, hk, hk2]

/-- C8: in both indexes built by buildLookup, a property whose normalized
name collides with an earlier property's overwrites it, so every lookup
resolves to the value of the last property (in enumeration order) whose
lowercased - respectively sanitized - name equals the probed key, and to
none when no property maps there. -/
theorem C8_lookup_last_write_wins (record : List (String × Json)) (k : String) :
    mapGet (buildLookup record).lower k = lastIndexed record jsToLower k ∧
    mapGet (buildLookup record).sanitized k = lastIndexed record sanitizeKey k := by
  constructor
  · rw [buildLookup, mapGet_foldl_mapSet jsToLower record [] k]
    simp [lastIndexed, mapGet_nil]
  · rw [buildLookup, mapGet_foldl_mapSet sanitizeKey record [] k]
    simp [lastIndexed, mapGet_nil]

/-- C5: getValueFromRecord is exactly the three-tier cascade the spec
describes: the first candidate key (in caller order) whose exact property
value satisfies the predicate; failing that, the first whose
lowercase-index value does; failing that, the first whose sanitized-index
value does; and none when all three tiers miss. -/
theorem C5_lookup_tier_order (record : List (String × Json)) (lookup : Lookup)
    (keys : List String) (predicate : Option (Json → Bool)) :
    getValueFromRecord record lookup keys predicate =
      (tierSpec (fun k => mapGet record k) predicate keys).or
        ((tierSpec (fun k => mapGet lookup.lower (jsToLower k)) predicate keys).or
          (tierSpec (fun k => mapGet lookup.sanitized (sanitizeKey k)) predicate keys)) := by
  unfold getValueFromRecord
  rw [tierScan_eq_findSome, tierScan_eq_findSome, tierScan_eq_findSome]
  cases h1 : tierSpec (fun k => mapGet record k) predicate keys with
  | some v => simp
  | none =>
    simp only [Option.none_or]
    cases h2 : tierSpec (fun k => mapGet lookup.lower (jsToLower k)) predicate keys with
    | some v => simp
    | none => simp

theorem mergeAggStep_preserve_init (maps : EngineMaps) (e : String × AggEntry)
    (fid : String) (v : InitValue) (h : mapGet maps.2 fid = some v) :
    mapGet (mergeAggStep maps e).2 fid = some v := by
  unfold mergeAggStep
  cases hi : e.2.initialValue with
  | none => simpa using h
  | some v' =>
    by_cases hh : mapHas maps.2 e.1
    · simpa [hh] using h
    · have hne : fid ≠ e.1 := by
        intro heq
        rw [heq] at h
        unfold mapHas at hh
        rw [h] at hh
        simp at hh
      simpa [hh, mapGet_mapSet, hne] using h

theorem mergeAggStep_preserve_opts (maps : EngineMaps) (e : String × AggEntry)
    (fid : String) (opts : List SelectOption) (h : mapGet maps.1 fid = some opts) :
    mapGet (mergeAggStep maps e).1 fid = some opts := by
  unfold mergeAggStep
  cases ho : e.2.options with
  | none => simpa using h
  | some l =>
    by_cases hc : l.length > 0 && ! mapHas maps.1 e.1
    · have hh : ¬ mapHas maps.1 e.1 = true := by
        intro hcon
        rw [hcon] at hc
        simp at hc
      have hne : fid ≠ e.1 := by
        intro heq
        rw [heq] at h
        unfold mapHas at hh
        rw [h] at hh
        simp at hh
      by_cases hn : (normalizeOptions l).length > 0
      · simpa [hc, hn, mapGet_mapSet, hne] using h
      · simpa [hc, hn] using h
    · simpa [hc] using h

theorem sharedPool_preserve_init (entriesList : List Json) (fields : List FormField)
    (maps : EngineMaps) : (sharedPool entriesList fields maps).2 = maps.2 := by
  unfold sharedPool
  by_cases hn : (normalizeOptions entriesList).length > 0 <;> simp [hn]

theorem sharedPool_preserve_opts (entriesList : List Json) (fields : List FormField)
    (maps : EngineMaps) (fid : String) (opts : List SelectOption)
    (h : mapGet maps.1 fid = some opts) :
    mapGet (sharedPool entriesList fields maps).1 fid = some opts := by
  unfold sharedPool
  by_cases hn : (normalizeOptions entriesList).length > 0
  · simp only [hn, if_pos]
    refine foldl_preserve (fun m => mapGet m fid = some opts) _ _ maps.1 ?_ h
    intro a f hf ha
    have hmem := List.of_mem_filter hf
    have hnothas : mapHas maps.1 f.id = false := by
      cases hx : mapHas maps.1 f.id
      · rfl
      · rw [hx] at hmem; simp at hmem
    have hne : fid ≠ f.id := by
      intro heq
      rw [heq] at h
      unfold mapHas at hnothas
      rw [h] at hnothas
      simp at hnothas
    rw [mapGet_mapSet, if_neg hne]
    exact ha
  · simp [hn, h]

theorem arrayBranch_preserve_init (entriesList : List Json) (fields : List FormField)
    (maps0 : EngineMaps) (fid : String) (v : InitValue)
    (h : mapGet maps0.2 fid = some v) :
    mapGet (arrayBranch entriesList fields maps0).2 fid = some v := by
  unfold arrayBranch
  have h1 : ∀ (agg : List (String × AggEntry)) (maps : EngineMaps),
      mapGet maps.2 fid = some v → mapGet (agg.foldl mergeAggStep maps).2 fid = some v :=
    fun agg maps hm => foldl_preserve (fun m => mapGet m.2 fid = some v) mergeAggStep agg maps
      (fun a b _ ha => mergeAggStep_preserve_init a b fid v ha) hm
  dsimp only
  split
  · exact h1 _ _ h
  · rw [sharedPool_preserve_init]
    exact h1 _ _ h

theorem arrayBranch_preserve_opts (entriesList : List Json) (fields : List FormField)
    (maps0 : EngineMaps) (fid : String) (opts : List SelectOption)
    (h : mapGet maps0.1 fid = some opts) :
    mapGet (arrayBranch entriesList fields maps0).1 fid = some opts := by
  unfold arrayBranch
  have h1 : ∀ (agg : List (String × AggEntry)) (maps : EngineMaps),
      mapGet maps.1 fid = some opts → mapGet (agg.foldl mergeAggStep maps).1 fid = some opts :=
    fun agg maps hm => foldl_preserve (fun m => mapGet m.1 fid = some opts) mergeAggStep agg maps
      (fun a b _ ha => mergeAggStep_preserve_opts a b fid opts ha) hm
  dsimp only
  split
  · exact h1 _ _ h
  · exact sharedPool_preserve_opts _ _ _ fid opts (h1 _ _ h)

/-- C7: on an array payload, explicit per-field path resolutions win: a
field id bound by the path pass in initialValues (respectively
selectOptions) keeps exactly its path-pass value in the engine's final
output - the structural aggregate merge and the shared-option-pool
fallback only ever fill absent field ids. -/
theorem C7_path_priority (entriesList : List Json) (fields : List FormField) (fid : String) :
    (∀ v : InitValue,
      mapGet (pathPass (Json.arr entriesList) fields).2 fid = some v →
      mapGet (processExternalData (Json.arr entriesList) fields).initialValues fid = some v) ∧
    (∀ opts : List SelectOption,
      mapGet (pathPass (Json.arr entriesList) fields).1 fid = some opts →
      mapGet (processExternalData (Json.arr entriesList) fields).selectOptions fid = some opts) := by
  constructor
  · intro v hv
    exact arrayBranch_preserve_init entriesList fields _ fid v hv
  · intro opts ho
    exact arrayBranch_preserve_opts entriesList fields _ fid opts ho

/-- C7 witness: a field whose path "[0].value" resolves 9 keeps 9 even
though the structural pass aggregates 7 for it from the same record. -/
theorem C7_path_priority_witness :
    mapGet (pathPass
      (Json.arr [Json.obj [("qty", Json.num (JsNumber.fin 7)), ("value", Json.num (JsNumber.fin 9))]])
      [⟨"qty", some "qty", FieldType.number, some "[0].value", none⟩]).2 "qty" =
      some (InitValue.num 9) ∧
    mapGet (processExternalData
      (Json.arr [Json.obj [("qty", Json.num (JsNumber.fin 7)), ("value", Json.num (JsNumber.fin 9))]])
      [⟨"qty", some "qty", FieldType.number, some "[0].value", none⟩]).initialValues "qty" =
      some (InitValue.num 9) :=
  ⟨by decide,
   (C7_path_priority
     [Json.obj [("qty", Json.num (JsNumber.fin 7)), ("value", Json.num (JsNumber.fin 9))]]
     [⟨"qty", some "qty", FieldType.number, some "[0].value", none⟩] "qty").1
     (InitValue.num 9) (by decide)⟩

theorem mem_of_mem_dedupFirstAux (seen l : List String) (x : String)
    (h : x ∈ dedupFirstAux seen l) : x ∈ l := by
  induction l generalizing seen with
  | nil => simp [dedupFirstAux] at h
  | cons y ys ih =>
    unfold dedupFirstAux at h
    by_cases hy : seen.contains y
    · simp only [hy, if_pos] at h
      exact List.mem_cons_of_mem y (ih seen h)
    · simp only [hy, if_neg, Bool.false_eq_true, not_false_iff] at h
      rcases List.mem_cons.mp h with h1 | h1
      · rw [h1]; exact List.mem_cons_self y ys
      · exact List.mem_cons_of_mem y (ih (y :: seen) h1)

theorem dedupFirstAux_spec (seen l : List String) :
    (∀ x ∈ dedupFirstAux seen l, ¬ x ∈ seen) ∧ (dedupFirstAux seen l).Nodup := by
  induction l generalizing seen with
  | nil => simp [dedupFirstAux]
  | cons y ys ih =>
    unfold dedupFirstAux
    by_cases hy : seen.contains y
    · have hy2 : y ∈ seen := by simpa using hy
      simpa [hy, hy2] using ih seen
    · have hy2 : ¬ y ∈ seen := by simpa using hy
      simp only [hy, Bool.false_eq_true, if_neg, not_false_iff]
      obtain ⟨ihm, ihn⟩ := ih (y :: seen)
      constructor
      · intro x hx hxs
        rcases List.mem_cons.mp hx with h1 | h1
        · rw [h1] at hxs
          exact hy2 hxs
        · exact ihm x h1 (List.mem_cons_of_mem y hxs)
      · refine List.nodup_cons.mpr ⟨fun hcon => ?_, ihn⟩
        exact ihm y hcon (List.mem_cons_self y seen)

theorem mem_dedupFirstAux_iff (seen l : List String) (y : String) :
    y ∈ dedupFirstAux seen l ↔ (y ∈ l ∧ ¬ y ∈ seen) := by
  induction l generalizing seen with
  | nil => simp [dedupFirstAux]
  | cons x xs ih =>
    unfold dedupFirstAux
    by_cases hx : seen.contains x
    · have hx2 : x ∈ seen := by simpa using hx
      rw [if_pos hx, ih seen]
      constructor
      · rintro ⟨h1, h2⟩
        exact ⟨List.mem_cons_of_mem x h1, h2⟩
      · rintro ⟨h1, h2⟩
        rcases List.mem_cons.mp h1 with h3 | h3
        · exact absurd (h3 ▸ hx2) h2
        · exact ⟨h3, h2⟩
    · have hx2 : ¬ x ∈ seen := by simpa using hx
      rw [if_neg (by simpa using hx)]
      rw [List.mem_cons, ih (x :: seen)]
      constructor
      · rintro (h1 | ⟨h1, h2⟩)
        · exact ⟨h1 ▸ List.mem_cons_self x xs, h1 ▸ hx2⟩
        · exact ⟨List.mem_cons_of_mem x h1, fun hc => h2 (List.mem_cons_of_mem x hc)⟩
      · rintro ⟨h1, h2⟩
        rcases List.mem_cons.mp h1 with h3 | h3
        · exact Or.inl h3
        · by_cases hyx : y = x
          · exact Or.inl hyx
          · exact Or.inr ⟨h3, fun hc => by
              rcases List.mem_cons.mp hc with h4 | h4
              · exact hyx h4
              · exact h2 h4⟩

theorem dedupFirstAux_congr (s1 s2 l : List String) (h : ∀ y, y ∈ s1 ↔ y ∈ s2) :
    dedupFirstAux s1 l = dedupFirstAux s2 l := by
  induction l generalizing s1 s2 with
  | nil => rfl
  | cons x xs ih =>
    unfold dedupFirstAux
    by_cases hx : x ∈ s1
    · have hx2 : x ∈ s2 := (h x).mp hx
      rw [if_pos (by simpa using hx), if_pos (by simpa using hx2)]
      exact ih s1 s2 h
    · have hx2 : ¬ x ∈ s2 := fun hc => hx ((h x).mpr hc)
      rw [if_neg (by simpa using hx), if_neg (by simpa using hx2)]
      rw [ih (x :: s1) (x :: s2) (fun y => by simp [h y])]

theorem mem_seenAfter_iff (seen xs : List String) (y : String) :
    y ∈ seenAfter seen xs ↔ (y ∈ seen ∨ y ∈ xs) := by
  induction xs generalizing seen with
  | nil => simp [seenAfter]
  | cons x xs ih =>
    unfold seenAfter
    by_cases hx : seen.contains x
    · have hx2 : x ∈ seen := by simpa using hx
      rw [if_pos hx, ih seen]
      constructor
      · rintro (h1 | h1)
        · exact Or.inl h1
        · exact Or.inr (List.mem_cons_of_mem x h1)
      · rintro (h1 | h1)
        · exact Or.inl h1
        · rcases List.mem_cons.mp h1 with h3 | h3
          · exact Or.inl (h3 ▸ hx2)
          · exact Or.inr h3
    · rw [if_neg (by simpa using hx), ih (x :: seen)]
      simp [List.mem_cons, or_assoc, or_left_comm]

theorem dedupFirstAux_append (seen xs ys : List String) :
    dedupFirstAux seen (xs ++ ys) =
      dedupFirstAux seen xs ++ dedupFirstAux (seenAfter seen xs) ys := by
  induction xs generalizing seen with
  | nil => simp [dedupFirstAux, seenAfter]
  | cons x xs ih =>
    rw [List.cons_append]
    unfold dedupFirstAux seenAfter
    by_cases hx : seen.contains x
    · rw [if_pos hx, if_pos hx, if_pos hx, ih seen]
      cases ys <;> rfl
    · rw [if_neg (by simpa using hx), if_neg (by simpa using hx),
        if_neg (by simpa using hx), List.cons_append, ih (x :: seen)]
      cases ys <;> rfl

theorem visit_leaf_values (acc : List SelectOption) (rawValue rawLabel : Option String) :
    ((match (match rawValue with | some s => some s | none => rawLabel) with
       | none => acc
       | some v =>
         if v = "" || acc.any (fun o => o.value == v) then acc
         else acc ++ [⟨v, rawLabel.getD v⟩]) : List SelectOption).map (fun o => o.value) =
      acc.map (fun o => o.value) ++
        dedupFirstAux (acc.map (fun o => o.value))
          (match (match rawValue with | some s => some s | none => rawLabel) with
           | none => []
           | some v => if v = "" then [] else [v]) := by
  cases hv : (match rawValue with | some s => some s | none => rawLabel) with
  | none => simp [dedupFirstAux]
  | some v =>
    by_cases hve : v = ""
    · simp [hve, dedupFirstAux]
    · by_cases hseen : acc.any (fun o => o.value == v)
      · have hc : (acc.map (fun o => o.value)).contains v = true := by
          simpa [List.contains_eq_any_beq, List.any_map, Function.comp] using hseen
        simp only [hve, hseen, dedupFirstAux, hc]
        simp [hve, hseen]
      · have hc : (acc.map (fun o => o.value)).contains v = false := by
          simpa [List.contains_eq_any_beq, List.any_map, Function.comp] using hseen
        simp [hve, hseen, dedupFirstAux, hc]
        rw [if_neg (by simpa using hseen)]

mutual

theorem visitOption_values (acc : List SelectOption) (j : Json) :
    (visitOption acc j).map (fun o => o.value) =
      acc.map (fun o => o.value) ++
        dedupFirstAux (acc.map (fun o => o.value)) (optionCandidates j) := by
  cases j with
  | arr items => exact visitOptionL_values acc items
  | null =>
    exact visit_leaf_values acc (toValueString (some Json.null)) (toLabelString (some Json.null))
  | bool b =>
    exact visit_leaf_values acc (toValueString (some (Json.bool b)))
      (toLabelString (some (Json.bool b)))
  | num n =>
    exact visit_leaf_values acc (toValueString (some (Json.num n)))
      (toLabelString (some (Json.num n)))
  | str s =>
    exact visit_leaf_values acc (toValueString (some (Json.str s)))
      (toLabelString (some (Json.str s)))
  | obj entries =>
    exact visit_leaf_values acc (toValueString (some (Json.obj entries)))
      (toLabelString (some (Json.obj entries)))

theorem visitOptionL_values (acc : List SelectOption) (l : List Json) :
    (visitOptionL acc l).map (fun o => o.value) =
      acc.map (fun o => o.value) ++
        dedupFirstAux (acc.map (fun o => o.value)) (optionCandidatesL l) := by
  cases l with
  | nil => simp [visitOptionL, optionCandidatesL, dedupFirstAux]
  | cons j js =>
    have h1 := visitOption_values acc j
    have h2 := visitOptionL_values (visitOption acc j) js
    rw [show visitOptionL acc (j :: js) = visitOptionL (visitOption acc j) js from rfl]
    rw [h2, h1]
    rw [show optionCandidatesL (j :: js) = optionCandidates j ++ optionCandidatesL js from rfl]
    rw [dedupFirstAux_append, List.append_assoc]
    congr 1
    congr 1
    apply dedupFirstAux_congr
    intro y
    rw [List.mem_append, mem_dedupFirstAux_iff, mem_seenAfter_iff]
    tauto

end

theorem cand_leaf_ne_empty (rawValue rawLabel : Option String) :
    ∀ x ∈ (match (match rawValue with | some s => some s | none => rawLabel) with
           | none => ([] : List String)
           | some v => if v = "" then [] else [v]), x ≠ "" := by
  cases hv : (match rawValue with | some s => some s | none => rawLabel) with
  | none => simp
  | some v =>
    by_cases hve : v = "" <;> simp [hve]

mutual

theorem optionCandidates_ne_empty (j : Json) : ∀ x ∈ optionCandidates j, x ≠ "" := by
  cases j with
  | arr items => exact optionCandidatesL_ne_empty items
  | null =>
    exact cand_leaf_ne_empty (toValueString (some Json.null)) (toLabelString (some Json.null))
  | bool b =>
    exact cand_leaf_ne_empty (toValueString (some (Json.bool b)))
      (toLabelString (some (Json.bool b)))
  | num n =>
    exact cand_leaf_ne_empty (toValueString (some (Json.num n)))
      (toLabelString (some (Json.num n)))
  | str s =>
    exact cand_leaf_ne_empty (toValueString (some (Json.str s)))
      (toLabelString (some (Json.str s)))
  | obj entries =>
    exact cand_leaf_ne_empty (toValueString (some (Json.obj entries)))
      (toLabelString (some (Json.obj entries)))

theorem optionCandidatesL_ne_empty (l : List Json) : ∀ x ∈ optionCandidatesL l, x ≠ "" := by
  cases l with
  | nil => simp [optionCandidatesL]
  | cons j js =>
    rw [show optionCandidatesL (j :: js) = optionCandidates j ++ optionCandidatesL js from rfl]
    intro x hx
    rcases List.mem_append.mp hx with h1 | h1
    · exact optionCandidates_ne_empty j x h1
    · exact optionCandidatesL_ne_empty js x h1

end

theorem normalizeOptions_values (input : List Json) :
    (normalizeOptions input).map (fun o => o.value) =
      dedupFirstAux [] (optionCandidatesL input) := by
  have h := visitOptionL_values [] input
  simpa [normalizeOptions] using h

theorem normalizeOptions_nodup (input : List Json) :
    ((normalizeOptions input).map (fun o => o.value)).Nodup := by
  rw [normalizeOptions_values]
  exact (dedupFirstAux_spec [] (optionCandidatesL input)).2

theorem normalizeOptions_value_ne_empty (input : List Json) :
    ∀ o ∈ normalizeOptions input, o.value ≠ "" := by
  intro o ho
  have hv : o.value ∈ (normalizeOptions input).map (fun o => o.value) :=
    List.mem_map_of_mem (fun o => o.value) ho
  rw [normalizeOptions_values] at hv
  exact optionCandidatesL_ne_empty input o.value (mem_of_mem_dedupFirstAux [] _ _ hv)

theorem nodup_snoc {l : List String} {v : String} (hn : l.Nodup) (hv : ¬ v ∈ l) :
    (l ++ [v]).Nodup := by
  rw [List.nodup_append]
  refine ⟨hn, List.nodup_singleton v, ?_⟩
  intro a ha hb
  rw [List.mem_singleton] at hb
  exact hv (hb ▸ ha)

theorem accOption_inv (acc : List SelectOption) (value : Option String)
    (label : String → String) (hn : (acc.map (fun o => o.value)).Nodup)
    (he : ∀ o ∈ acc, o.value ≠ "") :
    ((accOption acc value label).map (fun o => o.value)).Nodup ∧
      (∀ o ∈ accOption acc value label, o.value ≠ "") := by
  unfold accOption
  cases value with
  | none => exact ⟨hn, he⟩
  | some v =>
    by_cases hg : v = "" || acc.any (fun o => o.value == v)
    · simpa [hg] using ⟨hn, he⟩
    · have hve : ¬ v = "" := by
        intro hc
        simp [hc] at hg
      have hseen : ¬ acc.any (fun o => o.value == v) = true := by
        intro hc
        simp [hc] at hg
      have hvm : ¬ v ∈ acc.map (fun o => o.value) := by
        intro hc
        rcases List.mem_map.mp hc with ⟨o, ho, hov⟩
        exact hseen (List.any_eq_true.mpr ⟨o, ho, by simp [hov]⟩)
      simp only [hg, Bool.false_eq_true, if_neg, not_false_iff]
      constructor
      · rw [List.map_append]
        exact nodup_snoc hn hvm
      · intro o ho
        rcases List.mem_append.mp ho with h1 | h1
        · exact he o h1
        · rw [List.mem_singleton] at h1
          rw [h1]
          exact hve

theorem buildSelectLoop_inv (labelCandidates valueCandidates : List Json) (n : Nat) :
    ∀ (index : Nat) (acc : List SelectOption),
      (acc.map (fun o => o.value)).Nodup → (∀ o ∈ acc, o.value ≠ "") →
      ((buildSelectLoop labelCandidates valueCandidates index n acc).map
          (fun o => o.value)).Nodup ∧
        (∀ o ∈ buildSelectLoop labelCandidates valueCandidates index n acc, o.value ≠ "") := by
  induction n with
  | zero => exact fun index acc hn he => ⟨hn, he⟩
  | succ n ih =>
    intro index acc hn he
    have hstep : ((buildSelectStep labelCandidates valueCandidates index acc).map
          (fun o => o.value)).Nodup ∧
        (∀ o ∈ buildSelectStep labelCandidates valueCandidates index acc, o.value ≠ "") := by
      unfold buildSelectStep
      dsimp only
      exact accOption_inv acc _ _ hn he
    exact ih (index + 1) (buildSelectStep labelCandidates valueCandidates index acc)
      hstep.1 hstep.2

theorem buildSelectOptions_inv (labels values : Option Json) :
    (((buildSelectOptions labels values).map (fun o => o.value)).Nodup) ∧
      (∀ o ∈ buildSelectOptions labels values, o.value ≠ "") := by
  unfold buildSelectOptions
  cases values with
  | none =>
    dsimp only
    split
    · simp
    · exact buildSelectLoop_inv _ _ _ 0 [] (by simp) (by simp)
  | some v =>
    dsimp only
    split
    · simp
    · exact buildSelectLoop_inv _ _ _ 0 [] (by simp) (by simp)

theorem applyExplicit_options_inv (field : FormField) (value valueOverride : Option Json)
    (opts : List SelectOption)
    (h : (applyExplicitFieldData field value valueOverride).options = some opts) :
    opts ≠ [] ∧ (opts.map (fun o => o.value)).Nodup ∧ ∀ o ∈ opts, o.value ≠ "" := by
  unfold applyExplicitFieldData at h
  dsimp only at h
  split at h
  · rename_i r hr
    split at hr
    · split at hr
      · rename_i hlen
        have hr2 := Option.some.inj hr
        rw [← hr2] at h
        dsimp only at h
        rw [Option.some.injEq] at h
        subst h
        refine ⟨by intro hc; rw [hc] at hlen; simp at hlen,
          (buildSelectOptions_inv value valueOverride).1,
          (buildSelectOptions_inv value valueOverride).2⟩
      · simp at hr
    · simp at hr
  · split at h
    · rename_i items heq
      split at h
      · split at h
        · rename_i hlen
          dsimp only at h
          rw [Option.some.injEq] at h
          subst h
          exact ⟨by intro hc; rw [hc] at hlen; simp at hlen,
            normalizeOptions_nodup items, normalizeOptions_value_ne_empty items⟩
        · simp at h
      · split at h <;> simp at h
    · rename_i entries heq
      dsimp only at h
      split at h
      · split at h
        · rename_i optionArray hoa
          split at h
          · split at h
            · rename_i hlen
              rw [Option.some.injEq] at h
              subst h
              exact ⟨by intro hc; rw [hc] at hlen; simp at hlen,
                normalizeOptions_nodup optionArray, normalizeOptions_value_ne_empty optionArray⟩
            · simp at h
          · simp at h
        · simp at h
      · simp at h
    · dsimp only at h
      split at h
      · split at h
        · rename_i s
          split at h
          · split at h
            · rename_i hlen
              rw [Option.some.injEq] at h
              subst h
              exact ⟨by intro hc; rw [hc] at hlen; simp at hlen,
                normalizeOptions_nodup _, normalizeOptions_value_ne_empty _⟩
            · simp at h
          · simp at h
        · simp at h
      · simp at h

theorem optMapInv_mapSet (m : List (String × List SelectOption)) (k : String)
    (v : List SelectOption) (hm : optMapInv m) (hv : optInv v) :
    optMapInv (mapSet m k v) := by
  intro fid opts hg
  rw [mapGet_mapSet] at hg
  by_cases hk : fid = k
  · rw [if_pos hk, Option.some.injEq] at hg
    exact hg ▸ hv
  · rw [if_neg hk] at hg
    exact hm fid opts hg

theorem keysSub_mapSet {α : Type} (m : List (String × α)) (ids : List String)
    (k : String) (v : α) (hm : keysSub m ids) (hk : k ∈ ids) :
    keysSub (mapSet m k v) ids := by
  intro k' hk'
  rw [mapHas_mapSet] at hk'
  have hk2 : k' = k ∨ mapHas m k' = true := by simpa using hk'
  rcases hk2 with h1 | h1
  · exact h1 ▸ hk
  · exact hm k' h1

theorem mapHas_of_mem {α : Type} (m : List (String × α)) (e : String × α)
    (he : e ∈ m) : mapHas m e.1 := by
  unfold mapHas mapGet
  cases hf : m.find? (fun x => x.1 == e.1) with
  | some x => simp
  | none =>
    exfalso
    have hnone := List.find?_eq_none.mp hf e he
    simp at hnone

theorem pathWrite_inv (ids : List String) (maps : EngineMaps) (field : FormField)
    (r : ApplyResult)
    (hropts : ∀ opts, r.options = some opts →
      (opts.map (fun o => o.value)).Nodup ∧ ∀ o ∈ opts, o.value ≠ "")
    (hinv : engineMapsInv ids maps) (hid : field.id ∈ ids) :
    engineMapsInv ids
      ((match r.options with
        | some opts => if opts.length > 0 then mapSet maps.1 field.id opts else maps.1
        | none => maps.1),
       (match r.initialValue with
        | some v => mapSet maps.2 field.id v
        | none => maps.2)) := by
  obtain ⟨h1, h2, h3⟩ := hinv
  refine ⟨?_, ?_, ?_⟩
  · dsimp only
    cases ho : r.options with
    | none => exact h1
    | some opts =>
      dsimp only
      by_cases hlen : opts.length > 0
      · rw [if_pos hlen]
        exact optMapInv_mapSet _ _ _ h1
          ⟨by intro hc; rw [hc] at hlen; simp at hlen,
           (hropts opts ho).1, (hropts opts ho).2⟩
      · rw [if_neg hlen]
        exact h1
  · dsimp only
    cases ho : r.options with
    | none => exact h2
    | some opts =>
      dsimp only
      by_cases hlen : opts.length > 0
      · rw [if_pos hlen]
        exact keysSub_mapSet _ _ _ _ h2 hid
      · rw [if_neg hlen]
        exact h2
  · dsimp only
    cases hi : r.initialValue with
    | none => exact h3
    | some v =>
      dsimp only
      exact keysSub_mapSet _ _ _ _ h3 hid

theorem pathPassStep_inv (payload : Json) (ids : List String) (maps : EngineMaps)
    (field : FormField) (hinv : engineMapsInv ids maps) (hid : field.id ∈ ids) :
    engineMapsInv ids (pathPassStep payload maps field) := by
  unfold pathPassStep
  dsimp only
  by_cases hp : jsTrim (field.externalDataPath.getD "") = ""
  · rw [if_pos hp]
    exact hinv
  · rw [if_neg hp]
    generalize (if field.type = FieldType.select
      then field.externalDataValuePath.map jsTrim else none) = vp
    by_cases hg : ((resolvePathValue payload (jsTrim (field.externalDataPath.getD ""))).isNone &&
        (valueOverrideOf payload vp).isNone) = true
    · rw [if_pos hg]
      exact hinv
    · rw [if_neg hg]
      exact pathWrite_inv ids maps field _
        (fun opts ho => ⟨(applyExplicit_options_inv field _ _ opts ho).2.1,
          (applyExplicit_options_inv field _ _ opts ho).2.2⟩) hinv hid

theorem pathPass_inv (payload : Json) (fields : List FormField) :
    engineMapsInv (fields.map (fun f => f.id)) (pathPass payload fields) := by
  unfold pathPass
  refine foldl_preserve (engineMapsInv (fields.map (fun f => f.id))) _ _ _ ?_ ?_
  · intro a b hb ha
    exact pathPassStep_inv payload _ a b ha (List.mem_map_of_mem (fun f => f.id) hb)
  · exact ⟨fun fid opts hg => by simp [mapGet] at hg,
      fun k hk => by simp [mapHas, mapGet] at hk,
      fun k hk => by simp [mapHas, mapGet] at hk⟩

theorem structFieldStep_keys (record : List (String × Json)) (lookup : Lookup)
    (metaMap : List (String × FieldMeta)) (idVariants : List String) (ids : List String)
    (st : AggState) (field : FormField) (h : keysSub st.1 ids) (hid : field.id ∈ ids) :
    keysSub (structFieldStep record lookup metaMap idVariants st field).1 ids := by
  unfold structFieldStep
  cases hm : mapGet metaMap field.id with
  | none => exact h
  | some meta =>
    dsimp only
    split
    · exact keysSub_mapSet _ _ _ _ h hid
    · exact h

theorem structEntryStep_keys (fields : List FormField) (metaMap : List (String × FieldMeta))
    (idVariants : List String) (ids : List String) (st : AggState) (entry : Json)
    (h : keysSub st.1 ids) (hsub : ∀ f ∈ fields, f.id ∈ ids) :
    keysSub (structEntryStep fields metaMap idVariants st entry).1 ids := by
  unfold structEntryStep
  cases asRecord entry with
  | none => exact h
  | some record =>
    dsimp only
    exact foldl_preserve (fun s => keysSub s.1 ids) _ fields st
      (fun a b hb ha => structFieldStep_keys record (buildLookup record) metaMap idVariants
        ids a b ha (hsub b hb)) h

theorem mergeAggStep_inv (ids : List String) (maps : EngineMaps) (e : String × AggEntry)
    (hinv : engineMapsInv ids maps) (hid : e.1 ∈ ids) :
    engineMapsInv ids (mergeAggStep maps e) := by
  obtain ⟨h1, h2, h3⟩ := hinv
  unfold mergeAggStep
  dsimp only
  refine ⟨?_, ?_, ?_⟩
  · dsimp only
    cases ho : e.2.options with
    | none => exact h1
    | some l =>
      dsimp only
      by_cases hc : l.length > 0 && ! mapHas maps.1 e.1
      · rw [if_pos hc]
        by_cases hn : (normalizeOptions l).length > 0
        · rw [if_pos hn]
          exact optMapInv_mapSet _ _ _ h1
            ⟨by intro hcc; rw [hcc] at hn; simp at hn,
             normalizeOptions_nodup l, normalizeOptions_value_ne_empty l⟩
        · rw [if_neg hn]
          exact h1
      · rw [if_neg hc]
        exact h1
  · dsimp only
    cases ho : e.2.options with
    | none => exact h2
    | some l =>
      dsimp only
      by_cases hc : l.length > 0 && ! mapHas maps.1 e.1
      · rw [if_pos hc]
        by_cases hn : (normalizeOptions l).length > 0
        · rw [if_pos hn]
          exact keysSub_mapSet _ _ _ _ h2 hid
        · rw [if_neg hn]
          exact h2
      · rw [if_neg hc]
        exact h2
  · dsimp only
    cases hi : e.2.initialValue with
    | none => exact h3
    | some v =>
      dsimp only
      by_cases hh : mapHas maps.2 e.1
      · rw [if_pos hh]
        exact h3
      · rw [if_neg hh]
        exact keysSub_mapSet _ _ _ _ h3 hid

theorem sharedPool_inv (entriesList : List Json) (fields : List FormField)
    (ids : List String) (maps : EngineMaps) (hinv : engineMapsInv ids maps)
    (hsub : ∀ f ∈ fields, f.id ∈ ids) :
    engineMapsInv ids (sharedPool entriesList fields maps) := by
  obtain ⟨h1, h2, h3⟩ := hinv
  unfold sharedPool
  dsimp only
  by_cases hn : (normalizeOptions entriesList).length > 0
  · rw [if_pos hn]
    have hfold : ∀ m : List (String × List SelectOption),
        optMapInv m → keysSub m ids →
        optMapInv ((fields.filter (fun f =>
            f.type == FieldType.select && ! mapHas maps.1 f.id)).foldl
          (fun m f => mapSet m f.id (normalizeOptions entriesList)) m) ∧
        keysSub ((fields.filter (fun f =>
            f.type == FieldType.select && ! mapHas maps.1 f.id)).foldl
          (fun m f => mapSet m f.id (normalizeOptions entriesList)) m) ids := by
      intro m hm hk
      refine foldl_preserve (fun m => optMapInv m ∧ keysSub m ids) _ _ m ?_ ⟨hm, hk⟩
      intro a f hf ⟨ha1, ha2⟩
      constructor
      · exact optMapInv_mapSet _ _ _ ha1
          ⟨by intro hcc; rw [hcc] at hn; simp at hn,
           normalizeOptions_nodup entriesList, normalizeOptions_value_ne_empty entriesList⟩
      · exact keysSub_mapSet _ _ _ _ ha2 (hsub f (List.mem_of_mem_filter hf))
    exact ⟨(hfold maps.1 h1 h2).1, (hfold maps.1 h1 h2).2, h3⟩
  · rw [if_neg hn]
    exact ⟨h1, h2, h3⟩

theorem objectPassStep_inv (record : List (String × Json)) (lookup : Lookup)
    (genericArray : Option (List Json)) (ids : List String) (st : EngineMaps)
    (field : FormField) (hinv : engineMapsInv ids st) (hid : field.id ∈ ids) :
    engineMapsInv ids (objectPassStep record lookup genericArray st field) := by
  obtain ⟨h1, h2, h3⟩ := hinv
  unfold objectPassStep
  dsimp only
  refine ⟨?_, ?_, ?_⟩
  · dsimp only
    by_cases hsel : field.type = FieldType.select
    · rw [if_pos hsel]
      split
      · rename_i a hoa
        by_cases hh : mapHas st.1 field.id
        · rw [if_pos hh]
          exact h1
        · rw [if_neg hh]
          by_cases hn : (normalizeOptions a).length > 0
          · rw [if_pos hn]
            exact optMapInv_mapSet _ _ _ h1
              ⟨by intro hcc; rw [hcc] at hn; simp at hn,
               normalizeOptions_nodup a, normalizeOptions_value_ne_empty a⟩
          · rw [if_neg hn]
            exact h1
      · exact h1
    · rw [if_neg hsel]
      exact h1
  · dsimp only
    by_cases hsel : field.type = FieldType.select
    · rw [if_pos hsel]
      split
      · rename_i a hoa
        by_cases hh : mapHas st.1 field.id
        · rw [if_pos hh]
          exact h2
        · rw [if_neg hh]
          by_cases hn : (normalizeOptions a).length > 0
          · rw [if_pos hn]
            exact keysSub_mapSet _ _ _ _ h2 hid
          · rw [if_neg hn]
            exact h2
      · exact h2
    · rw [if_neg hsel]
      exact h2
  · dsimp only
    split
    · rename_i v hv
      by_cases hh : mapHas st.2 field.id
      · rw [if_pos hh]
        exact h3
      · rw [if_neg hh]
        exact keysSub_mapSet _ _ _ _ h3 hid
    · exact h3

theorem arrayBranch_inv (entriesList : List Json) (fields : List FormField)
    (ids : List String) (maps0 : EngineMaps) (hinv : engineMapsInv ids maps0)
    (hsub : ∀ f ∈ fields, f.id ∈ ids) :
    engineMapsInv ids (arrayBranch entriesList fields maps0) := by
  unfold arrayBranch
  dsimp only
  have haggkeys : keysSub (entriesList.foldl
      (structEntryStep fields (buildFieldMeta fields) identifierKeyVariants)
      ([], false)).1 ids := by
    refine foldl_preserve (fun s => keysSub s.1 ids) _ _ ([], false) ?_ ?_
    · intro a b _ ha
      exact structEntryStep_keys fields (buildFieldMeta fields) identifierKeyVariants
        ids a b ha hsub
    · intro k hk
      simp [mapHas, mapGet] at hk
  have hmerge : engineMapsInv ids ((entriesList.foldl
      (structEntryStep fields (buildFieldMeta fields) identifierKeyVariants)
      ([], false)).1.foldl mergeAggStep maps0) := by
    refine foldl_preserve (engineMapsInv ids) mergeAggStep _ maps0 ?_ hinv
    intro a e he ha
    exact mergeAggStep_inv ids a e ha (haggkeys e.1 (mapHas_of_mem _ e he))
  split
  · exact hmerge
  · exact sharedPool_inv entriesList fields ids _ hmerge hsub

theorem objectBranch_inv (entries : List (String × Json)) (fields : List FormField)
    (ids : List String) (maps0 : EngineMaps) (hinv : engineMapsInv ids maps0)
    (hsub : ∀ f ∈ fields, f.id ∈ ids) :
    engineMapsInv ids (objectBranch entries fields maps0) := by
  unfold objectBranch
  dsimp only
  refine foldl_preserve (engineMapsInv ids) _ _ maps0 ?_ hinv
  intro a f hf ha
  exact objectPassStep_inv entries (buildLookup entries) _ ids a f ha (hsub f hf)

theorem processExternalData_inv (payload : Json) (fields : List FormField) :
    optMapInv (processExternalData payload fields).selectOptions ∧
    keysSub (processExternalData payload fields).selectOptions (fields.map (fun f => f.id)) ∧
    keysSub (processExternalData payload fields).initialValues (fields.map (fun f => f.id)) := by
  have hsub : ∀ f ∈ fields, f.id ∈ fields.map (fun f => f.id) :=
    fun f hf => List.mem_map_of_mem (fun f => f.id) hf
  have hpp := pathPass_inv payload fields
  unfold processExternalData
  cases payload with
  | arr entriesList =>
    dsimp only
    exact arrayBranch_inv entriesList fields _ _ hpp hsub
  | obj entries =>
    dsimp only
    exact objectBranch_inv entries fields _ _ hpp hsub
  | null => exact hpp
  | bool b => exact hpp
  | num n => exact hpp
  | str s => exact hpp

/-- C2: processExternalData is a total function of the decoded payload and
the field descriptors - the embedding's definition is accepted for every
Json payload, which is the shallow form of "terminates normally and never
throws", with every fallible platform operation modelled Option-valued so
that each internal failure (unparseable path, shape mismatch, uncoercible
value) surfaces as none rather than an exception.  Failure-as-absence is
reflected in the output maps: an entry can exist only under the id of one
of the supplied fields (everything else stayed absent), and no empty
option-list placeholder is ever written. -/
theorem C2_engine_total_failures_absent (payload : Json) (fields : List FormField) :
    (∀ fid, mapHas (processExternalData payload fields).selectOptions fid →
      fid ∈ fields.map (fun f => f.id)) ∧
    (∀ fid, mapHas (processExternalData payload fields).initialValues fid →
      fid ∈ fields.map (fun f => f.id)) ∧
    (∀ fid opts, mapGet (processExternalData payload fields).selectOptions fid = some opts →
      opts ≠ []) := by
  obtain ⟨h1, h2, h3⟩ := processExternalData_inv payload fields
  exact ⟨h2, h3, fun fid opts hg => (h1 fid opts hg).1⟩

/-- C2 witness: on the structural example the only initialValues keys are
the two supplied field ids. -/
theorem C2_engine_total_failures_absent_witness :
    (mapHas (processExternalData structuralExamplePayload
      [qtyField, companyField]).initialValues "qty" = true) ∧
    "qty" ∈ [qtyField, companyField].map (fun f => f.id) :=
  ⟨by decide,
   (C2_engine_total_failures_absent structuralExamplePayload [qtyField, companyField]).2.1
     "qty" (by decide)⟩

/-- C4: every option list the engine emits is well-formed.  The value
stream of normalizeOptions is exactly the first-occurrence deduplication of
its leaf candidate values (so values are unique, non-empty, and in order of
first appearance with later duplicates dropped); buildSelectOptions emits
unique non-empty values as well; and every list stored in selectOptions by
any pass of processExternalData is non-empty with unique non-empty values.
Initial values are typed InitValue, so an undefined placeholder is not
representable, and the key-subset half of the map invariant is the
absence-only discipline. -/
theorem C4_option_list_invariants :
    (∀ input : List Json, (normalizeOptions input).map (fun o => o.value) =
        dedupFirstAux [] (optionCandidatesL input)) ∧
    (∀ input : List Json, ((normalizeOptions input).map (fun o => o.value)).Nodup ∧
        ∀ o ∈ normalizeOptions input, o.value ≠ "") ∧
    (∀ labels values : Option Json,
        ((buildSelectOptions labels values).map (fun o => o.value)).Nodup ∧
        ∀ o ∈ buildSelectOptions labels values, o.value ≠ "") ∧
    (∀ (payload : Json) (fields : List FormField) (fid : String) (opts : List SelectOption),
        mapGet (processExternalData payload fields).selectOptions fid = some opts →
        opts ≠ [] ∧ (opts.map (fun o => o.value)).Nodup ∧ ∀ o ∈ opts, o.value ≠ "") :=
  ⟨normalizeOptions_values,
   fun input => ⟨normalizeOptions_nodup input, normalizeOptions_value_ne_empty input⟩,
   buildSelectOptions_inv,
   fun payload fields fid opts hg => (processExternalData_inv payload fields).1 fid opts hg⟩

/-- C4 witness: a shared-pool resolution stores the deduplicated list
[(A, A), (B, B)] for the select field, and the stored list satisfies the
emitted-list invariant. -/
theorem C4_option_list_invariants_witness :
    (mapGet (processExternalData (Json.arr [Json.str "A", Json.str "A", Json.str "B"])
        [⟨"choice", some "choice", FieldType.select, none, none⟩]).selectOptions "choice" =
      some [⟨"A", "A"⟩, ⟨"B", "B"⟩]) ∧
    ([⟨"A", "A"⟩, ⟨"B", "B"⟩] : List SelectOption) ≠ [] ∧
    (([⟨"A", "A"⟩, ⟨"B", "B"⟩] : List SelectOption).map (fun o => o.value)).Nodup ∧
    (∀ o ∈ ([⟨"A", "A"⟩, ⟨"B", "B"⟩] : List SelectOption), o.value ≠ "") :=
  ⟨by decide,
   C4_option_list_invariants.2.2.2 (Json.arr [Json.str "A", Json.str "A", Json.str "B"])
     [⟨"choice", some "choice", FieldType.select, none, none⟩] "choice"
     [⟨"A", "A"⟩, ⟨"B", "B"⟩] (by decide)⟩
